import Mathlib

/-!
Verification development for the Aethon voice-assistant pipeline core.

This file gives a shallow embedding in Lean 4 of the parts of the code base
that the specification's claims talk about:

* the Python string primitives the code relies on (`str.strip`, `str.rfind`
  over a character set, `re.sub` for the handful of concrete patterns used),
  modelled on `List Char`;
* the sentence segmenter of `aethon/llm/gemini.py`
  (`_split_at_last_sentence`, `_split_early`, `_split_and_yield`) and of
  `jarvis/llm/ollama.py` (the inline split in `generate_stream`, including
  the `<think>` block filter);
* the conversation-history effects of `generate_stream`,
  `pop_last_user_message` and `_trim_history` of both LLM backends, and the
  post-turn bookkeeping of `AethonPipeline._respond_streaming`;
* the barge-in monitor (`AethonPipeline._monitor_barge_in`);
* the AGC of `aethon/audio/manager.py` (`_apply_agc` inside the capture
  callback);
* the utterance collector (`AethonPipeline._collect_speech`);
* the HTTP handlers `_handle_command` / `_handle_speak` of
  `aethon/api/server.py`;
* the TTS text preparation of `jarvis/tts/text_prep.py` and the emotion-tag
  stripper of `jarvis/tts/emotion.py`.

Real (float) arithmetic of the source is modelled exactly over `ℚ`;
byte strings are modelled as `List Char`.  Threads communicating through
events are modelled by making the observation point of each event an
explicit parameter (e.g. the index at which a generator observes its
cancellation event).
-/

set_option maxHeartbeats 1000000

/-! ### Python string primitives -/

/-- Characters treated as whitespace by Python's `str.strip` / `\s`
(the ASCII repertoire, which covers every character the code handles). -/
def isWS (c : Char) : Bool :=
  c == ' ' || c == '\t' || c == '\n' || c == '\r' || c == '\x0b' || c == '\x0c'

/-- All characters of the list are whitespace. -/
def allWS (l : List Char) : Prop := ∀ c ∈ l, isWS c = true

instance (l : List Char) : Decidable (allWS l) := by
  unfold allWS; infer_instance

/-- Python `str.lstrip()`. -/
def pyLStrip (l : List Char) : List Char := l.dropWhile isWS

/-- Python `str.rstrip()`. -/
def pyRStrip (l : List Char) : List Char := (l.reverse.dropWhile isWS).reverse

/-- Python `str.strip()`. -/
def pyStrip (l : List Char) : List Char := pyRStrip (pyLStrip l)

theorem allWS_append {a b : List Char} (ha : allWS a) (hb : allWS b) :
    allWS (a ++ b) := by
  intro c hc
  rcases List.mem_append.1 hc with h | h
  · exact ha c h
  · exact hb c h

theorem allWS_takeWhile (l : List Char) : allWS (l.takeWhile isWS) := by
  intro c hc
  exact List.mem_takeWhile_imp hc

theorem allWS_reverse {l : List Char} (h : allWS l) : allWS l.reverse := by
  intro c hc
  exact h c (List.mem_reverse.1 hc)

/-- `lstrip` decomposition: a leading all-whitespace part is removed. -/
theorem pyLStrip_decomp (l : List Char) :
    ∃ w, allWS w ∧ l = w ++ pyLStrip l :=
  ⟨l.takeWhile isWS, allWS_takeWhile l,
    (List.takeWhile_append_dropWhile (p := isWS) (l := l)).symm⟩

/-- `rstrip` decomposition: a trailing all-whitespace part is removed. -/
theorem pyRStrip_decomp (l : List Char) :
    ∃ w, allWS w ∧ l = pyRStrip l ++ w := by
  refine ⟨(l.reverse.takeWhile isWS).reverse, allWS_reverse (allWS_takeWhile _), ?_⟩
  have h := congrArg List.reverse (List.takeWhile_append_dropWhile
    (p := isWS) (l := l.reverse))
  rw [List.reverse_append, List.reverse_reverse] at h
  exact h.symm ▸ rfl

/-- `strip` decomposition: `l = w₁ ++ pyStrip l ++ w₂` with `w₁, w₂` whitespace. -/
theorem pyStrip_decomp (l : List Char) :
    ∃ w₁ w₂, allWS w₁ ∧ allWS w₂ ∧ l = w₁ ++ pyStrip l ++ w₂ := by
  obtain ⟨w₁, hw₁, h₁⟩ := pyLStrip_decomp l
  obtain ⟨w₂, hw₂, h₂⟩ := pyRStrip_decomp (pyLStrip l)
  refine ⟨w₁, w₂, hw₁, hw₂, ?_⟩
  show l = w₁ ++ pyRStrip (pyLStrip l) ++ w₂
  rw [List.append_assoc, ← h₂, ← h₁]

/-- If the strip of `l` is empty then `l` is all whitespace. -/
theorem allWS_of_pyStrip_eq_nil {l : List Char} (h : pyStrip l = []) : allWS l := by
  obtain ⟨w₁, w₂, hw₁, hw₂, hl⟩ := pyStrip_decomp l
  rw [h] at hl
  intro c hc
  rw [hl] at hc
  simp only [List.append_nil, List.mem_append] at hc
  rcases hc with h1 | h2
  · exact hw₁ c h1
  · exact hw₂ c h2

/-- A list containing a non-whitespace character has a nonempty strip. -/
theorem pyStrip_ne_nil_of_mem {l : List Char} {c : Char} (hc : c ∈ l)
    (hws : isWS c = false) : pyStrip l ≠ [] := by
  intro h
  have := allWS_of_pyStrip_eq_nil h c hc
  simp [hws] at this

/-- The head of `dropWhile` fails the predicate. -/
theorem dropWhile_head_false {p : Char → Bool} {l m : List Char} {c : Char}
    (h : l.dropWhile p = c :: m) : p c = false := by
  induction l with
  | nil => simp at h
  | cons a t ih =>
    by_cases hpa : p a
    · rw [List.dropWhile_cons_of_pos hpa] at h; exact ih h
    · rw [List.dropWhile_cons_of_neg hpa] at h
      cases h; simpa using hpa

/-- A nonempty strip has a non-whitespace first character. -/
theorem pyStrip_head_not_ws {l m : List Char} {c : Char}
    (h : pyStrip l = c :: m) : isWS c = false := by
  -- `pyStrip l` is a prefix of `pyLStrip l`, whose head is non-whitespace.
  obtain ⟨w, hw, hdec⟩ := pyRStrip_decomp (pyLStrip l)
  unfold pyStrip at h
  rw [h] at hdec
  have hdw : l.dropWhile isWS = c :: (m ++ w) := by
    rw [← List.cons_append]; exact hdec
  exact dropWhile_head_false hdw

/-- Every nonempty strip contains a non-whitespace character. -/
theorem pyStrip_has_non_ws {l : List Char} (h : pyStrip l ≠ []) :
    ∃ c ∈ pyStrip l, isWS c = false := by
  cases hs : pyStrip l with
  | nil => exact absurd hs h
  | cons c m => exact ⟨c, by simp [hs], pyStrip_head_not_ws hs⟩

/-- `str.rfind` over a set of characters: the greatest index whose character
belongs to `S` (the source computes it as a max of per-character `rfind`s). -/
def lastIdxMem (S : List Char) : List Char → Option Nat
  | [] => none
  | c :: cs =>
    match lastIdxMem S cs with
    | some i => some (i + 1)
    | none => if c ∈ S then some 0 else none

theorem lastIdxMem_none_spec {S l : List Char} (h : lastIdxMem S l = none) :
    ∀ c ∈ l, c ∉ S := by
  induction l with
  | nil => simp
  | cons a t ih =>
    intro c hc
    rw [lastIdxMem] at h
    rcases ht : lastIdxMem S t with _ | i
    · rw [ht] at h
      simp only at h
      rcases hc with _ | hc
      · intro hmem; simp [hmem] at h
      · exact ih ht c (by assumption)
    · rw [ht] at h; simp at h

theorem lastIdxMem_some_spec {S l : List Char} {i : Nat}
    (h : lastIdxMem S l = some i) :
    (∃ c, l.get? i = some c ∧ c ∈ S) ∧ ∀ c ∈ l.drop (i + 1), c ∉ S := by
  induction l generalizing i with
  | nil => simp [lastIdxMem] at h
  | cons a t ih =>
    rw [lastIdxMem] at h
    rcases ht : lastIdxMem S t with _ | j
    · rw [ht] at h
      by_cases ha : a ∈ S
      · simp only [ha, if_pos] at h
        cases h
        exact ⟨⟨a, rfl, ha⟩, by simpa using lastIdxMem_none_spec ht⟩
      · simp [ha] at h
    · rw [ht] at h
      cases h
      obtain ⟨⟨c, hc, hcS⟩, hrest⟩ := ih ht
      exact ⟨⟨c, by simpa using hc, hcS⟩, by simpa using hrest⟩

/-! ### AGC — `AudioManager._apply_agc` (aethon/audio/manager.py)

State `(_agc_gain, _agc_rms_sum, _agc_count)` with the update rule of
`_apply_agc`; the capture callback applies it only when `auto_gain` is
configured and playback is inactive.  The per-chunk RMS (a derived value of
the samples in the source) is the input of each step; the sample transform
itself does not feed back into the gain state and is omitted. -/

structure AgcSt where
  gain : ℚ
  rmsSum : ℚ
  count : ℕ

/-- Initial AGC state (`__init__`): gain 1.0, empty window. -/
def agcInit : AgcSt := ⟨1, 0, 0⟩

/-- Silence gate of `_apply_agc`: chunks with RMS > 0.002 feed the window. -/
def agcWindow (st : AgcSt) (rms : ℚ) : AgcSt :=
  if rms > 1/500 then
    { st with rmsSum := st.rmsSum + rms, count := st.count + 1 }
  else st

/-- Periodic gain update of `_apply_agc` (every `_agc_update_every = 100`
accepted chunks): `new_gain = target_rms / avg_rms` clamped to `[1, 20]`,
then `gain ← 0.7·gain + 0.3·new_gain`; the window is reset. -/
def agcUpdate (targetRms : ℚ) (st : AgcSt) : AgcSt :=
  if st.count ≥ 100 then
    if st.rmsSum / (st.count : ℚ) > 1/500 then
      { gain := st.gain * (7/10)
          + (max 1 (min (targetRms / (st.rmsSum / (st.count : ℚ))) 20)) * (3/10),
        rmsSum := 0, count := 0 }
    else { st with rmsSum := 0, count := 0 }
  else st

/-- One call of `_apply_agc` with the chunk's RMS value. -/
def applyAgc (targetRms : ℚ) (st : AgcSt) (rms : ℚ) : AgcSt :=
  agcUpdate targetRms (agcWindow st rms)

/-- One capture callback (`_audio_callback`): the AGC runs only when
`auto_gain` is on and playback is inactive.  An event is the chunk RMS
paired with the `_is_playing` flag at callback time. -/
def audioCallbackAgc (autoGain : Bool) (targetRms : ℚ)
    (st : AgcSt) (ev : ℚ × Bool) : AgcSt :=
  if autoGain && !ev.2 then applyAgc targetRms st ev.1 else st

theorem agcWindow_gain (st : AgcSt) (rms : ℚ) : (agcWindow st rms).gain = st.gain := by
  unfold agcWindow; split <;> rfl

theorem agcUpdate_gain_bounds {targetRms : ℚ} {st : AgcSt}
    (h1 : 1 ≤ st.gain) (h2 : st.gain ≤ 20) :
    1 ≤ (agcUpdate targetRms st).gain ∧ (agcUpdate targetRms st).gain ≤ 20 := by
  unfold agcUpdate
  split_ifs with hc havg
  · set n := max 1 (min (targetRms / (st.rmsSum / (st.count : ℚ))) 20) with hn
    have hn1 : (1:ℚ) ≤ n := le_max_left _ _
    have hn2 : n ≤ 20 := max_le (by norm_num) (min_le_right _ _)
    constructor
    · show 1 ≤ st.gain * (7/10) + n * (3/10); nlinarith
    · show st.gain * (7/10) + n * (3/10) ≤ 20; nlinarith
  · exact ⟨h1, h2⟩
  · exact ⟨h1, h2⟩

theorem applyAgc_gain_bounds {targetRms : ℚ} {st : AgcSt} {rms : ℚ}
    (h1 : 1 ≤ st.gain) (h2 : st.gain ≤ 20) :
    1 ≤ (applyAgc targetRms st rms).gain ∧ (applyAgc targetRms st rms).gain ≤ 20 := by
  unfold applyAgc
  exact agcUpdate_gain_bounds (by rw [agcWindow_gain]; exact h1)
    (by rw [agcWindow_gain]; exact h2)

/-- C6 helper: the AGC gain invariant over any sequence of capture callbacks. -/
theorem agc_fold_bounds (autoGain : Bool) (targetRms : ℚ)
    (evs : List (ℚ × Bool)) (st : AgcSt)
    (h1 : 1 ≤ st.gain) (h2 : st.gain ≤ 20) :
    1 ≤ (evs.foldl (audioCallbackAgc autoGain targetRms) st).gain ∧
      (evs.foldl (audioCallbackAgc autoGain targetRms) st).gain ≤ 20 := by
  induction evs generalizing st with
  | nil => exact ⟨h1, h2⟩
  | cons e t ih =>
    rw [List.foldl_cons]
    have : 1 ≤ (audioCallbackAgc autoGain targetRms st e).gain ∧
        (audioCallbackAgc autoGain targetRms st e).gain ≤ 20 := by
      unfold audioCallbackAgc
      split
      · exact applyAgc_gain_bounds h1 h2
      · exact ⟨h1, h2⟩
    exact ih _ this.1 this.2

/-- **C6.** The AGC gain is always in `[1.0, 20.0]`: starting from gain 1.0,
each periodic update clamps `target_rms / avg_rms` to `[1, 20]` and low-pass
filters `gain ← 0.7·gain + 0.3·new_gain`, so after every capture callback —
for any RMS sequence, playback pattern and configured target — the gain stays
within `[1.0, 20.0]`. -/
theorem C6_agc_gain_in_bounds (autoGain : Bool) (targetRms : ℚ)
    (evs : List (ℚ × Bool)) :
    1 ≤ (evs.foldl (audioCallbackAgc autoGain targetRms) agcInit).gain ∧
      (evs.foldl (audioCallbackAgc autoGain targetRms) agcInit).gain ≤ 20 :=
  agc_fold_bounds autoGain targetRms evs agcInit (by norm_num [agcInit]) (by norm_num [agcInit])

/-! ### Sentence segmenter — `GeminiLLM` (aethon/llm/gemini.py)

`_split_at_last_sentence`, `_split_early` and `_split_and_yield`, operating
on the rolling buffer of `generate_stream`. -/

/-- The sentence terminators `(".", "!", "?", "…", "\n")`. -/
def sentenceEnds : List Char := ['.', '!', '?', '…', '\n']

/-- The early-split separators `(",", ";")`. -/
def commaSeps : List Char := [',', ';']

/-- `GeminiLLM._split_at_last_sentence`: split at the last sentence
terminator; `("", buffer)` if none is found. -/
def splitAtLastSentence (buffer : List Char) : List Char × List Char :=
  match lastIdxMem sentenceEnds buffer with
  | none => ([], buffer)
  | some i => (pyStrip (buffer.take (i + 1)), buffer.drop (i + 1))

/-- `GeminiLLM._split_early`: split at the last `,`/`;` when the buffer has
at least `_COMMA_SPLIT_THRESHOLD = 60` characters and the separator is at
index ≥ 20; `("", buffer)` otherwise. -/
def splitEarly (buffer : List Char) : List Char × List Char :=
  if buffer.length < 60 then ([], buffer)
  else
    match lastIdxMem commaSeps buffer with
    | none => ([], buffer)
    | some i =>
      if i < 20 then ([], buffer)
      else (pyStrip (buffer.take (i + 1)), buffer.drop (i + 1))

/-- `GeminiLLM._split_and_yield` without the `_current_response` side effect
(restored by callers): sentence split first, early split second, otherwise
keep the whole buffer. -/
def splitAndYield (buffer : List Char) : Option (List Char) × List Char :=
  match splitAtLastSentence buffer with
  | (s, remaining) =>
    if s ≠ [] then (some s, remaining)
    else
      match splitEarly buffer with
      | (s2, rem2) => if s2 ≠ [] then (some s2, rem2) else (none, buffer)

/-- A yielded segment is the strip of a consumed prefix of the buffer. -/
theorem splitAtLastSentence_some {buffer s r : List Char}
    (h : splitAtLastSentence buffer = (s, r)) (hne : s ≠ []) :
    ∃ n, s = pyStrip (buffer.take n) ∧ r = buffer.drop n := by
  unfold splitAtLastSentence at h
  rcases hl : lastIdxMem sentenceEnds buffer with _ | i
  · rw [hl] at h; cases h; exact absurd rfl hne
  · rw [hl] at h; cases h; exact ⟨i + 1, rfl, rfl⟩

theorem splitEarly_some {buffer s r : List Char}
    (h : splitEarly buffer = (s, r)) (hne : s ≠ []) :
    ∃ n, s = pyStrip (buffer.take n) ∧ r = buffer.drop n := by
  unfold splitEarly at h
  by_cases hlen : buffer.length < 60
  · rw [if_pos hlen] at h; cases h; exact absurd rfl hne
  · rw [if_neg hlen] at h
    rcases hl : lastIdxMem commaSeps buffer with _ | i
    · rw [hl] at h; dsimp only at h; cases h; exact absurd rfl hne
    · rw [hl] at h; dsimp only at h
      by_cases hi : i < 20
      · rw [if_pos hi] at h; cases h; exact absurd rfl hne
      · rw [if_neg hi] at h; cases h; exact ⟨i + 1, rfl, rfl⟩

theorem splitAndYield_some {buffer s r : List Char}
    (h : splitAndYield buffer = (some s, r)) :
    s ≠ [] ∧ ∃ n, s = pyStrip (buffer.take n) ∧ r = buffer.drop n := by
  unfold splitAndYield at h
  rcases h1 : splitAtLastSentence buffer with ⟨s1, r1⟩
  rw [h1] at h; dsimp only at h
  by_cases hs1 : s1 ≠ []
  · rw [if_pos hs1] at h
    cases h
    exact ⟨hs1, splitAtLastSentence_some h1 hs1⟩
  · rw [if_neg hs1] at h
    rcases h2 : splitEarly buffer with ⟨s2, r2⟩
    rw [h2] at h; dsimp only at h
    by_cases hs2 : s2 ≠ []
    · rw [if_pos hs2] at h
      cases h
      exact ⟨hs2, splitEarly_some h2 hs2⟩
    · rw [if_neg hs2] at h; cases h

theorem splitAndYield_none {buffer r : List Char}
    (h : splitAndYield buffer = (none, r)) : r = buffer := by
  unfold splitAndYield at h
  rcases h1 : splitAtLastSentence buffer with ⟨s1, r1⟩
  rw [h1] at h; dsimp only at h
  by_cases hs1 : s1 ≠ []
  · rw [if_pos hs1] at h; cases h
  · rw [if_neg hs1] at h
    rcases h2 : splitEarly buffer with ⟨s2, r2⟩
    rw [h2] at h; dsimp only at h
    by_cases hs2 : s2 ≠ []
    · rw [if_pos hs2] at h; cases h
    · rw [if_neg hs2] at h; cases h; rfl

/-! ### Whitespace-interleaved decomposition

`segDecomp t segs tail` states that `t` consists of the segments `segs` in
order, separated (and possibly preceded/followed) by whitespace, followed by
`tail`.  It certifies that every character of every segment comes from a
distinct position of `t` — no character is ever emitted twice. -/

def segDecomp (t : List Char) : List (List Char) → List Char → Prop
  | [], tail => ∃ w, allWS w ∧ t = w ++ tail
  | s :: ss, tail => ∃ w u, allWS w ∧ t = w ++ s ++ u ∧ segDecomp u ss tail

/-- The whole-text form: segments interleaved with whitespace, nothing else. -/
def segInterleave (t : List Char) (segs : List (List Char)) : Prop :=
  segDecomp t segs []

theorem segDecomp_nil_nil : segDecomp [] [] [] :=
  ⟨[], fun c hc => absurd hc (List.not_mem_nil c), rfl⟩

/-- Appending new text to the full text and the buffer preserves the
decomposition. -/
theorem segDecomp_append_tok {t segs buf} (tok : List Char)
    (h : segDecomp t segs buf) : segDecomp (t ++ tok) segs (buf ++ tok) := by
  induction segs generalizing t with
  | nil =>
    obtain ⟨w, hw, ht⟩ := h
    exact ⟨w, hw, by rw [ht, List.append_assoc]⟩
  | cons s ss ih =>
    obtain ⟨w, u, hw, ht, hu⟩ := h
    exact ⟨w, u ++ tok, hw, by rw [ht]; simp [List.append_assoc], ih hu⟩

/-- Emitting the strip of a consumed buffer prefix extends the segment list. -/
theorem segDecomp_emit {t segs buf} {s w₁ w₂ rest : List Char}
    (h : segDecomp t segs buf) (hbuf : buf = (w₁ ++ s ++ w₂) ++ rest)
    (hw₁ : allWS w₁) (hw₂ : allWS w₂) :
    segDecomp t (segs ++ [s]) rest := by
  induction segs generalizing t with
  | nil =>
    obtain ⟨w, hw, ht⟩ := h
    refine ⟨w ++ w₁, w₂ ++ rest, allWS_append hw hw₁, ?_, w₂, hw₂, rfl⟩
    rw [ht, hbuf]; simp [List.append_assoc]
  | cons a ss ih =>
    obtain ⟨w, u, hw, ht, hu⟩ := h
    exact ⟨w, u, hw, ht, ih hu⟩

/-- Dropping an all-whitespace consumed prefix of the buffer (a split whose
stripped sentence is empty) preserves the decomposition. -/
theorem segDecomp_consume_ws {t segs buf} {pre rest : List Char}
    (h : segDecomp t segs buf) (hbuf : buf = pre ++ rest) (hpre : allWS pre) :
    segDecomp t segs rest := by
  induction segs generalizing t with
  | nil =>
    obtain ⟨w, hw, ht⟩ := h
    exact ⟨w ++ pre, allWS_append hw hpre, by rw [ht, hbuf, List.append_assoc]⟩
  | cons a ss ih =>
    obtain ⟨w, u, hw, ht, hu⟩ := h
    exact ⟨w, u, hw, ht, ih hu⟩

/-- Characters of decomposed segments are characters of the full text. -/
theorem segDecomp_mem {t segs buf} (h : segDecomp t segs buf)
    {s : List Char} (hs : s ∈ segs) {c : Char} (hc : c ∈ s) : c ∈ t := by
  induction segs generalizing t with
  | nil => cases hs
  | cons a ss ih =>
    obtain ⟨w, u, _, ht, hu⟩ := h
    rcases hs with _ | hs
    · rw [ht]; simp [hc]
    · rw [ht]; simp only [List.append_assoc, List.mem_append]
      right; right; exact ih hu (by assumption)

/-- With an empty segment list, the full text is whitespace followed by the
buffer. -/
theorem segDecomp_nil_inv {t buf} (h : segDecomp t [] buf) :
    ∃ w, allWS w ∧ t = w ++ buf := h

/-! ### `GeminiLLM.generate_stream` — streaming segmentation state

One fold step per received text chunk: append to `full_text` and the buffer,
split once via `_split_and_yield`; at end of stream, flush the stripped
remainder.  Cancellation (`_cancel_event`) is observed at the top of the
chunk loop; it is modelled by the index of the first iteration at which the
event is seen, so a cancelled run processes a prefix of the chunks.  Streams
carrying `function_calls` and the error path are outside this model (the
pipeline configurations under study register no tools). -/

structure GemSt where
  buffer : List Char
  emitted : List (List Char)
  current : List Char
  fullText : List Char
deriving DecidableEq

def gemInit : GemSt := ⟨[], [], [], []⟩

/-- One loop iteration of `generate_stream` for a text chunk `tok`:
`full_text += text; buffer += text; sentence, buffer = _split_and_yield(buffer)`
(with `_current_response += sentence + " "` on a yield). -/
def gemStep (st : GemSt) (tok : List Char) : GemSt :=
  match splitAndYield (st.buffer ++ tok) with
  | (some s, rest) =>
    { buffer := rest, emitted := st.emitted ++ [s],
      current := st.current ++ s ++ [' '], fullText := st.fullText ++ tok }
  | (none, rest) =>
    { buffer := rest, emitted := st.emitted, current := st.current,
      fullText := st.fullText ++ tok }

/-- The chunks actually processed: all of them, or the prefix before the
cancellation event is observed. -/
def takeProcessed (toks : List (List Char)) : Option Nat → List (List Char)
  | none => toks
  | some k => toks.take k

def geminiProcess (toks : List (List Char)) (cancelAt : Option Nat) : GemSt :=
  (takeProcessed toks cancelAt).foldl gemStep gemInit

/-- End-of-loop flush: `remaining = buffer.strip(); if remaining: yield`.
(In `GeminiLLM.generate_stream` this flush is not guarded by the
cancellation flag.) -/
def geminiFlush (st : GemSt) : GemSt :=
  let rem := pyStrip st.buffer
  if rem ≠ [] then
    { st with emitted := st.emitted ++ [rem], current := st.current ++ rem ++ [' '] }
  else st

/-- The full streaming run of `generate_stream`'s segmentation. -/
def geminiStream (toks : List (List Char)) (cancelAt : Option Nat) : GemSt :=
  geminiFlush (geminiProcess toks cancelAt)

/-- Invariant of the chunk loop: the received text decomposes into the
emitted segments (whitespace-interleaved) followed by the buffer; every
emitted segment is a nonempty `strip` of some text; `_current_response`
is the emitted segments each followed by one space. -/
def gemInv (st : GemSt) : Prop :=
  segDecomp st.fullText st.emitted st.buffer ∧
  (∀ s ∈ st.emitted, ∃ x, s = pyStrip x ∧ s ≠ []) ∧
  st.current = (st.emitted.map (fun s => s ++ [' '])).join

theorem gemInv_init : gemInv gemInit :=
  ⟨segDecomp_nil_nil, fun s hs => absurd hs (List.not_mem_nil s), rfl⟩

theorem gemInv_step {st : GemSt} (h : gemInv st) (tok : List Char) :
    gemInv (gemStep st tok) := by
  obtain ⟨hdec, hsegs, hcur⟩ := h
  have hdec' := segDecomp_append_tok tok hdec
  rcases hy : splitAndYield (st.buffer ++ tok) with ⟨o, rest⟩
  cases o with
  | none =>
    have hg : gemStep st tok = ⟨rest, st.emitted, st.current, st.fullText ++ tok⟩ := by
      unfold gemStep; rw [hy]
    rw [hg]
    have hrest := splitAndYield_none hy
    exact ⟨by rw [hrest]; exact hdec', hsegs, hcur⟩
  | some s =>
    have hg : gemStep st tok =
        ⟨rest, st.emitted ++ [s], st.current ++ s ++ [' '], st.fullText ++ tok⟩ := by
      unfold gemStep; rw [hy]
    rw [hg]
    obtain ⟨hne, n, hs, hr⟩ := splitAndYield_some hy
    obtain ⟨w₁, w₂, hw₁, hw₂, htake⟩ := pyStrip_decomp ((st.buffer ++ tok).take n)
    refine ⟨?_, ?_, ?_⟩
    · refine segDecomp_emit hdec' ?_ hw₁ hw₂
      rw [hs, ← htake, hr]
      exact (List.take_append_drop n (st.buffer ++ tok)).symm
    · intro x hx
      rcases List.mem_append.1 hx with hx | hx
      · exact hsegs x hx
      · rw [List.mem_singleton.1 hx]
        exact ⟨(st.buffer ++ tok).take n, hs, hne⟩
    · simp [hcur, List.append_assoc]

theorem gemInv_fold (toks : List (List Char)) {st : GemSt} (h : gemInv st) :
    gemInv (toks.foldl gemStep st) := by
  induction toks generalizing st with
  | nil => exact h
  | cons t ts ih => exact ih (gemInv_step h t)

theorem gemInv_process (toks : List (List Char)) (cancelAt : Option Nat) :
    gemInv (geminiProcess toks cancelAt) :=
  gemInv_fold _ gemInv_init

theorem gemStep_fullText (st : GemSt) (tok : List Char) :
    (gemStep st tok).fullText = st.fullText ++ tok := by
  rcases hy : splitAndYield (st.buffer ++ tok) with ⟨o, rest⟩
  cases o <;> · unfold gemStep; rw [hy]

theorem geminiProcess_fullText (toks : List (List Char)) (cancelAt : Option Nat) :
    (geminiProcess toks cancelAt).fullText = (takeProcessed toks cancelAt).join := by
  unfold geminiProcess
  generalize takeProcessed toks cancelAt = ts
  suffices h : ∀ (ts : List (List Char)) (st : GemSt),
      (ts.foldl gemStep st).fullText = st.fullText ++ ts.join by
    simpa using h ts gemInit
  intro ts
  induction ts with
  | nil => intro st; simp
  | cons t tt ih =>
    intro st
    rw [List.foldl_cons, ih, gemStep_fullText]
    simp

theorem geminiFlush_fullText (st : GemSt) : (geminiFlush st).fullText = st.fullText := by
  simp only [geminiFlush]
  split <;> rfl

/-- After the flush the emitted segments interleave the full received text. -/
theorem geminiStream_inv (toks : List (List Char)) (cancelAt : Option Nat) :
    segInterleave (geminiProcess toks cancelAt).fullText
      (geminiStream toks cancelAt).emitted ∧
    (∀ s ∈ (geminiStream toks cancelAt).emitted, ∃ x, s = pyStrip x ∧ s ≠ []) ∧
    (geminiStream toks cancelAt).current =
      ((geminiStream toks cancelAt).emitted.map (fun s => s ++ [' '])).join := by
  obtain ⟨hdec, hsegs, hcur⟩ := gemInv_process toks cancelAt
  unfold geminiStream
  by_cases hrem : pyStrip (geminiProcess toks cancelAt).buffer = []
  · have hg : geminiFlush (geminiProcess toks cancelAt) = geminiProcess toks cancelAt := by
      simp only [geminiFlush]
      rw [if_neg (by simpa using hrem)]
    rw [hg]
    refine ⟨?_, hsegs, hcur⟩
    exact segDecomp_consume_ws hdec
      (by rw [List.append_nil]) (allWS_of_pyStrip_eq_nil hrem)
  · have hg : geminiFlush (geminiProcess toks cancelAt) =
        ⟨(geminiProcess toks cancelAt).buffer,
          (geminiProcess toks cancelAt).emitted
            ++ [pyStrip (geminiProcess toks cancelAt).buffer],
          (geminiProcess toks cancelAt).current
            ++ pyStrip (geminiProcess toks cancelAt).buffer ++ [' '],
          (geminiProcess toks cancelAt).fullText⟩ := by
      simp only [geminiFlush]
      rw [if_pos hrem]
    rw [hg]
    obtain ⟨w₁, w₂, hw₁, hw₂, hbuf⟩ := pyStrip_decomp (geminiProcess toks cancelAt).buffer
    refine ⟨?_, ?_, ?_⟩
    · exact segDecomp_emit hdec (by rw [List.append_nil]; exact hbuf) hw₁ hw₂
    · intro x hx
      rcases List.mem_append.1 hx with hx | hx
      · exact hsegs x hx
      · exact (List.mem_singleton.1 hx) ▸ ⟨(geminiProcess toks cancelAt).buffer, rfl, hrem⟩
    · simp [hcur, List.append_assoc]

/-- Concrete token stream refuting the verbatim-concatenation reading. -/
def c2Toks : List (List Char) := [['H', 'i', '.', ' '], ['Y', 'o', '.']]

/-- **C2 (counterexample).** On the stream `"Hi. " · "Yo."` the segmenter
yields `"Hi."` and `"Yo."`; their concatenation `"Hi.Yo."` differs from the
full text `"Hi. Yo."` even after trimming trailing whitespace — segments are
stripped on both ends, so interior boundary whitespace is lost, refuting the
claim that only trailing-whitespace trimming separates the concatenation
from the full text. -/
theorem C2_counterexample :
    pyRStrip ((geminiStream c2Toks none).emitted.join) ≠ pyRStrip c2Toks.join := by
  decide

/-- **C2 (amended).** Every segment the Gemini segmenter yields (including
the end-of-stream flush) is nonempty and contains a non-whitespace
character; the LLM's full emitted text decomposes as the yielded segments in
order, interleaved only with whitespace — so no character is emitted in two
segments, and concatenation reproduces the full text up to whitespace
dropped at segment boundaries (not only trailing whitespace). -/
theorem C2_segmenter_sound (toks : List (List Char)) :
    segInterleave toks.join ((geminiStream toks none).emitted) ∧
    ∀ s ∈ (geminiStream toks none).emitted, s ≠ [] ∧ ∃ c ∈ s, isWS c = false := by
  obtain ⟨hdec, hsegs, _⟩ := geminiStream_inv toks none
  constructor
  · rw [geminiProcess_fullText toks none] at hdec
    exact hdec
  · intro s hs
    obtain ⟨x, hx, hne⟩ := hsegs s hs
    refine ⟨hne, ?_⟩
    obtain ⟨c, hc, hcws⟩ := @pyStrip_has_non_ws x (by rw [← hx]; exact hne)
    exact ⟨c, by rw [hx]; exact hc, hcws⟩

/-! ### C7 — conditions of the early split -/

theorem mem_of_get?_eq {l : List Char} {j : Nat} {c : Char}
    (hj : l.get? j = some c) : c ∈ l := List.get?_mem hj

/-- If the primary split produced an empty segment, every sentence
terminator occurring in the buffer lies inside a leading all-whitespace
prefix. -/
theorem terminators_in_ws_prefix {buf : List Char}
    (h : (splitAtLastSentence buf).1 = []) :
    ∀ j c, buf.get? j = some c → c ∈ sentenceEnds → allWS (buf.take (j + 1)) := by
  intro j c hj hc
  unfold splitAtLastSentence at h
  rcases hl : lastIdxMem sentenceEnds buf with _ | i
  · exact absurd hc (lastIdxMem_none_spec hl c (mem_of_get?_eq hj))
  · rw [hl] at h
    dsimp only at h
    have hws : allWS (buf.take (i + 1)) := allWS_of_pyStrip_eq_nil h
    obtain ⟨_, hrest⟩ := lastIdxMem_some_spec hl
    have hji : j < i + 1 := by
      by_contra hji
      push_neg at hji
      have hcmem : c ∈ buf.drop (i + 1) := by
        have : (buf.drop (i + 1)).get? (j - (i + 1)) = some c := by
          rw [List.get?_drop]
          rwa [Nat.add_sub_cancel' hji]
        exact mem_of_get?_eq this
      exact hrest c hcmem hc
    intro c' hc'
    apply hws c'
    have htt : buf.take (j + 1) = (buf.take (i + 1)).take (j + 1) := by
      rw [List.take_take, min_eq_left (by omega)]
    rw [htt] at hc'
    exact List.take_subset _ _ hc'

/-- **C7 (amended).** The Gemini segmenter performs an early split only when
the primary split yields no segment — so every sentence terminator in the
buffer, if any, lies in a leading all-whitespace prefix (the claim's "no
sentence terminator" is the typical case but not the only one) — and the
buffer holds at least 60 characters; it cuts at the last `,`/`;`, provided
that separator is at index ≥ 20; and a buffer of exactly 60 characters whose
only comma is at position 19 is not early-split. -/
theorem C7_early_split_amended :
    (∀ buf s r, splitAndYield buf = (some s, r) → (splitAtLastSentence buf).1 = [] →
      60 ≤ buf.length ∧
      (∀ j c, buf.get? j = some c → c ∈ sentenceEnds → allWS (buf.take (j + 1))) ∧
      (∃ i c, 20 ≤ i ∧ buf.get? i = some c ∧ c ∈ commaSeps ∧
        (∀ c' ∈ buf.drop (i + 1), c' ∉ commaSeps) ∧
        s = pyStrip (buf.take (i + 1)) ∧ r = buf.drop (i + 1))) ∧
    splitAndYield (List.replicate 19 'a' ++ [','] ++ List.replicate 40 'a') =
      (none, List.replicate 19 'a' ++ [','] ++ List.replicate 40 'a') := by
  constructor
  · intro buf s r hy hempty
    -- the yielded segment comes from `_split_early`
    have hearly : splitEarly buf = (s, r) := by
      unfold splitAndYield at hy
      rcases h1 : splitAtLastSentence buf with ⟨s1, r1⟩
      rw [h1] at hy; dsimp only at hy
      rw [h1] at hempty; dsimp only at hempty
      rw [if_neg (by simpa using hempty)] at hy
      rcases h2 : splitEarly buf with ⟨s2, r2⟩
      rw [h2] at hy; dsimp only at hy
      by_cases hs2 : s2 ≠ []
      · rw [if_pos hs2] at hy; cases hy; rfl
      · rw [if_neg hs2] at hy; cases hy
    refine ⟨?_, terminators_in_ws_prefix hempty, ?_⟩
    · unfold splitEarly at hearly
      by_cases hlen : buf.length < 60
      · rw [if_pos hlen] at hearly
        cases hearly
        -- then `s = []`, contradicting the yield
        obtain ⟨hne, _⟩ := splitAndYield_some hy
        exact absurd rfl hne
      · omega
    · unfold splitEarly at hearly
      obtain ⟨hne, _⟩ := splitAndYield_some hy
      by_cases hlen : buf.length < 60
      · rw [if_pos hlen] at hearly; cases hearly; exact absurd rfl hne
      · rw [if_neg hlen] at hearly
        rcases hl : lastIdxMem commaSeps buf with _ | i
        · rw [hl] at hearly; dsimp only at hearly; cases hearly; exact absurd rfl hne
        · rw [hl] at hearly; dsimp only at hearly
          by_cases hi : i < 20
          · rw [if_pos hi] at hearly; cases hearly; exact absurd rfl hne
          · rw [if_neg hi] at hearly
            cases hearly
            obtain ⟨⟨c, hc, hcS⟩, hrest⟩ := lastIdxMem_some_spec hl
            exact ⟨i, c, by omega, hc, hcS, hrest, rfl, rfl⟩
  · decide

/-- The buffer of the C7 counterexample: a newline (a sentence terminator)
followed by 30 letters, a comma at index 31, and 40 more letters. -/
def c7CexBuf : List Char := '\n' :: (List.replicate 30 'a' ++ [','] ++ List.replicate 40 'b')

/-- **C7 (counterexample).** The buffer `"\n" ++ "a"*30 ++ "," ++ "b"*40`
contains the sentence terminator `'\n'`, yet `_split_and_yield` performs an
early split on it (the primary split strips to empty because the only
terminator sits in leading whitespace) — refuting "early split only when the
rolling buffer contains no sentence terminator". -/
theorem C7_counterexample :
    '\n' ∈ c7CexBuf ∧ '\n' ∈ sentenceEnds ∧
    (splitAtLastSentence c7CexBuf).1 = [] ∧
    (splitEarly c7CexBuf).1 ≠ [] ∧
    (splitAndYield c7CexBuf).1 = some (splitEarly c7CexBuf).1 := by
  decide

/-- Witness for C7: the amended theorem applied to the concrete buffer above. -/
theorem C7_witness :
    60 ≤ c7CexBuf.length ∧
    (∀ j c, c7CexBuf.get? j = some c → c ∈ sentenceEnds → allWS (c7CexBuf.take (j + 1))) ∧
    (∃ i c, 20 ≤ i ∧ c7CexBuf.get? i = some c ∧ c ∈ commaSeps ∧
      (∀ c' ∈ c7CexBuf.drop (i + 1), c' ∉ commaSeps) ∧
      pyStrip (c7CexBuf.take 32) = pyStrip (c7CexBuf.take (i + 1)) ∧
      c7CexBuf.drop 32 = c7CexBuf.drop (i + 1)) :=
  C7_early_split_amended.1 c7CexBuf (pyStrip (c7CexBuf.take 32)) (c7CexBuf.drop 32)
    (by decide) (by decide)

theorem length_dropWhile_le_own (p : Char → Bool) (l : List Char) :
    (l.dropWhile p).length ≤ l.length := by
  induction l with
  | nil => simp
  | cons a t ih =>
    rw [List.dropWhile_cons]
    split
    · exact Nat.le_succ_of_le ih
    · simp

/-! ### Emotion tags — `jarvis/tts/emotion.py`

`_TAG_RE = re.compile(r"\[(neutre|joyeux|...)\]", re.IGNORECASE)` and
`strip_emotion_tags(text) = _TAG_RE.sub("", text)` followed by
`re.sub(r"\s{2,}", " ", ...)` and `.strip()`.  The scanners are written with
a fuel argument equal to the input length so that they are structurally
recursive (and hence kernel-evaluable); each recursive call consumes at
least one character, so the fuel never runs out. -/

/-- The recognized emotion keys, in the insertion order of `EMOTION_PRESETS`
(the order of the regex alternation). -/
def emotionKeys : List (List Char) :=
  [['n','e','u','t','r','e'], ['j','o','y','e','u','x'], ['t','r','i','s','t','e'],
   ['s','u','r','p','r','i','s'], ['t','a','q','u','i','n'],
   ['s','e','r','i','e','u','x'], ['d','o','u','x'], ['e','x','c','i','t','e']]

/-- Case-insensitive match of a (lowercase) keyword against the front of the
text; returns the rest of the text after the keyword. -/
def ciMatchRest : List Char → List Char → Option (List Char)
  | [], s => some s
  | _ :: _, [] => none
  | k :: kt, c :: ct => if c.toLower == k then ciMatchRest kt ct else none

/-- Try the alternation (in order) after an opening `[`: the first keyword
that matches and is followed by `]` wins; returns the full tag length. -/
def tagMatchLen : List (List Char) → List Char → Option Nat
  | [], _ => none
  | kw :: kws, rest =>
    match ciMatchRest kw rest with
    | some (']' :: _) => some (kw.length + 2)
    | _ => tagMatchLen kws rest

/-- Length of a `_TAG_RE` match starting at the head of the text, if any. -/
def matchEmoTagLen : List Char → Option Nat
  | '[' :: rest => tagMatchLen emotionKeys rest
  | _ => none

/-- `_TAG_RE.sub("", text)`: leftmost-first removal of every tag match. -/
def stripTagsF : Nat → List Char → List Char
  | 0, l => l
  | fuel + 1, l =>
    match l with
    | [] => []
    | c :: rest =>
      match matchEmoTagLen (c :: rest) with
      | some n => stripTagsF fuel ((c :: rest).drop n)
      | none => c :: stripTagsF fuel rest

def stripTagsOnce (l : List Char) : List Char := stripTagsF l.length l

/-- Whether `_TAG_RE` matches anywhere in the text. -/
def containsEmoTag : List Char → Bool
  | [] => false
  | c :: rest => (matchEmoTagLen (c :: rest)).isSome || containsEmoTag rest

/-- Whether the text has two consecutive whitespace characters
(a match of `\s{2,}`). -/
def hasWsRun : List Char → Bool
  | [] => false
  | [_] => false
  | a :: b :: t => (isWS a && isWS b) || hasWsRun (b :: t)

/-- `re.sub(r"\s{2,}", " ", text)`: each maximal run of ≥ 2 whitespace
characters becomes a single space. -/
def collapseWsRunsF : Nat → List Char → List Char
  | 0, l => l
  | fuel + 1, l =>
    match l with
    | [] => []
    | [a] => [a]
    | a :: b :: t =>
      if isWS a && isWS b then ' ' :: collapseWsRunsF fuel ((b :: t).dropWhile isWS)
      else a :: collapseWsRunsF fuel (b :: t)

def collapseWsRuns (l : List Char) : List Char := collapseWsRunsF l.length l

/-- `strip_emotion_tags`: remove tags, collapse whitespace runs, strip. -/
def stripEmotionTags (t : List Char) : List Char :=
  pyStrip (collapseWsRuns (stripTagsOnce t))

/-- A text without a tag match is unchanged by the tag scanner. -/
theorem stripTagsF_of_no_tag {s : List Char} (fuel : Nat)
    (h : containsEmoTag s = false) : stripTagsF fuel s = s := by
  induction fuel generalizing s with
  | zero => rfl
  | succ f ih =>
    cases s with
    | nil => rfl
    | cons c rest =>
      rw [containsEmoTag] at h
      rw [stripTagsF]
      rcases hm : matchEmoTagLen (c :: rest) with _ | n
      · rw [hm] at h
        dsimp only
        rw [ih (by simpa using h)]
      · rw [hm] at h; simp at h

/-- A text without consecutive whitespace is unchanged by the collapse. -/
theorem collapseWsRunsF_of_no_run {l : List Char} (fuel : Nat)
    (h : hasWsRun l = false) : collapseWsRunsF fuel l = l := by
  induction fuel generalizing l with
  | zero => rfl
  | succ f ih =>
    match l with
    | [] => rfl
    | [a] => rfl
    | a :: b :: t =>
      rw [hasWsRun] at h
      simp only [Bool.or_eq_false_iff] at h
      rw [collapseWsRunsF]
      rw [if_neg (by simp [h.1]), ih h.2]

/-- The head of the collapse output comes from the input: if it is
whitespace, so is the input's head. -/
theorem collapseWsRunsF_head {fuel : Nat} {z : List Char} {x : Char} {xs : List Char}
    (h : collapseWsRunsF fuel z = x :: xs) :
    ∃ zh zt, z = zh :: zt ∧ (isWS x = true → isWS zh = true) := by
  cases fuel with
  | zero => exact ⟨x, xs, h, fun hx => hx ▸ rfl⟩
  | succ f =>
    match z with
    | [] => rw [collapseWsRunsF] at h; cases h
    | [a] =>
      rw [collapseWsRunsF] at h
      injection h with h1 h2
      exact ⟨a, [], rfl, fun hx => by rw [h1]; exact hx⟩
    | a :: b :: t =>
      rw [collapseWsRunsF] at h
      by_cases hab : isWS a && isWS b
      · exact ⟨a, b :: t, rfl, fun _ => (Bool.and_eq_true_iff.1 hab).1⟩
      · rw [if_neg hab] at h
        injection h with h1 h2
        exact ⟨a, b :: t, rfl, fun hx => by rw [h1]; exact hx⟩

/-- The collapse output never contains two consecutive whitespace
characters. -/
theorem collapseWsRunsF_no_run {fuel : Nat} {l : List Char}
    (hf : l.length ≤ fuel) : hasWsRun (collapseWsRunsF fuel l) = false := by
  induction fuel generalizing l with
  | zero =>
    have : l = [] := List.length_eq_zero.1 (Nat.le_zero.1 hf)
    subst this; rfl
  | succ f ih =>
    match l with
    | [] => rfl
    | [a] => rfl
    | a :: b :: t =>
      rw [collapseWsRunsF]
      by_cases hab : isWS a && isWS b
      · rw [if_pos hab]
        have hlen : ((b :: t).dropWhile isWS).length ≤ f := by
          have h1 := length_dropWhile_le_own isWS (b :: t)
          simp only [List.length_cons] at hf h1 ⊢
          omega
        have hX := ih hlen
        rcases hXc : collapseWsRunsF f ((b :: t).dropWhile isWS) with _ | ⟨x, xs⟩
        · rfl
        · rw [hXc] at hX
          rw [hasWsRun]
          obtain ⟨zh, zt, hz, hzh⟩ := collapseWsRunsF_head hXc
          have hzhf : isWS zh = false := dropWhile_head_false hz
          have hx : isWS x = false := by
            rcases hxv : isWS x with _ | _
            · rfl
            · exact absurd (hzh hxv) (by simp [hzhf])
          simp [hx, hX]
      · rw [if_neg hab]
        have hlen : (b :: t).length ≤ f := by
          simp only [List.length_cons] at hf ⊢; omega
        have hY := ih hlen
        rcases hYc : collapseWsRunsF f (b :: t) with _ | ⟨y, ys⟩
        · rfl
        · rw [hYc] at hY
          rw [hasWsRun]
          rcases hav : isWS a with _ | _
          · simp [hav, hY]
          · obtain ⟨zh, zt, hz, hzh⟩ := collapseWsRunsF_head hYc
            have hzb : zh = b := by
              injection hz with h1 h2
              exact h1.symm
            rw [hzb] at hzh
            have hbf : isWS b = false := by
              rcases hbv : isWS b with _ | _
              · rfl
              · exact absurd (by simp [hav, hbv] : (isWS a && isWS b) = true) hab
            have hy : isWS y = false := by
              rcases hyv : isWS y with _ | _
              · rfl
              · exact absurd (hzh hyv) (by simp [hbf])
            simp [hy, hY]

/-! ### C10 — idempotence analysis of `strip_emotion_tags` -/

theorem dropWhile_eq_self_of_head_false {p : Char → Bool} {l : List Char}
    (h : ∀ c m, l = c :: m → p c = false) : l.dropWhile p = l := by
  cases l with
  | nil => rfl
  | cons c m => exact List.dropWhile_cons_of_neg (by simp [h c m rfl])

theorem pyLStrip_pyStrip (x : List Char) : pyLStrip (pyStrip x) = pyStrip x := by
  unfold pyLStrip
  apply dropWhile_eq_self_of_head_false
  intro c m hc
  exact pyStrip_head_not_ws hc

theorem pyStrip_reverse_eq (x : List Char) :
    (pyStrip x).reverse = (pyLStrip x).reverse.dropWhile isWS := by
  unfold pyStrip pyRStrip
  rw [List.reverse_reverse]

theorem pyRStrip_pyStrip (x : List Char) : pyRStrip (pyStrip x) = pyStrip x := by
  unfold pyRStrip
  rw [dropWhile_eq_self_of_head_false, List.reverse_reverse]
  intro c m hc
  rw [pyStrip_reverse_eq] at hc
  exact dropWhile_head_false hc

theorem pyStrip_idem (x : List Char) : pyStrip (pyStrip x) = pyStrip x := by
  show pyRStrip (pyLStrip (pyStrip x)) = pyStrip x
  rw [pyLStrip_pyStrip, pyRStrip_pyStrip]

theorem hasWsRun_cons_false {a : Char} {l : List Char}
    (h : hasWsRun (a :: l) = false) : hasWsRun l = false := by
  cases l with
  | nil => rfl
  | cons b t =>
    rw [hasWsRun] at h
    simpa using (Bool.or_eq_false_iff.1 h).2

theorem hasWsRun_append_right {xs ys : List Char}
    (h : hasWsRun (xs ++ ys) = false) : hasWsRun ys = false := by
  induction xs with
  | nil => exact h
  | cons a t ih => exact ih (hasWsRun_cons_false h)

theorem hasWsRun_append_left {xs ys : List Char}
    (h : hasWsRun (xs ++ ys) = false) : hasWsRun xs = false := by
  induction xs with
  | nil => rfl
  | cons a t ih =>
    cases t with
    | nil => rfl
    | cons b t' =>
      rw [List.cons_append, List.cons_append] at h
      rw [hasWsRun] at h
      obtain ⟨h1, h2⟩ := Bool.or_eq_false_iff.1 h
      rw [hasWsRun]
      have h3 : hasWsRun (b :: t') = false := ih (by rw [List.cons_append]; exact h2)
      simp [h1, h3]

/-- `strip()` preserves the absence of whitespace runs. -/
theorem hasWsRun_pyStrip {x : List Char} (h : hasWsRun x = false) :
    hasWsRun (pyStrip x) = false := by
  obtain ⟨w₁, hw₁, h₁⟩ := pyLStrip_decomp x
  rw [h₁] at h
  have h2 : hasWsRun (pyLStrip x) = false := hasWsRun_append_right h
  obtain ⟨w₂, hw₂, h₂d⟩ := pyRStrip_decomp (pyLStrip x)
  rw [h₂d] at h2
  exact hasWsRun_append_left h2

/-- Concrete input on which `strip_emotion_tags` is not idempotent: removing
the inner `[joyeux]` tag concatenates `"[jo"` and `"yeux]"` into a fresh tag. -/
def c10Cex : List Char :=
  ['[','j','o','[','j','o','y','e','u','x',']','y','e','u','x',']']

/-- **C10 (counterexample).** `strip_emotion_tags` is not idempotent: on
`"[jo[joyeux]yeux]"` one pass yields `"[joyeux]"` (the removal of the inner
tag creates a new recognized tag), and a second pass removes it. -/
theorem C10_counterexample :
    stripEmotionTags (stripEmotionTags c10Cex) ≠ stripEmotionTags c10Cex := by
  decide

/-- **C10 (amended).** `strip_emotion_tags` is idempotent on every input
whose first pass leaves no recognized `[emotion]` tag (in particular on all
inputs where tag removal does not concatenate fragments into a new tag —
the typical case): if `strip_emotion_tags(t)` contains no tag match, then
`strip_emotion_tags(strip_emotion_tags(t)) = strip_emotion_tags(t)`. -/
theorem C10_strip_tags_idem_amended (t : List Char)
    (h : containsEmoTag (stripEmotionTags t) = false) :
    stripEmotionTags (stripEmotionTags t) = stripEmotionTags t := by
  have h1 : stripTagsOnce (stripEmotionTags t) = stripEmotionTags t :=
    stripTagsF_of_no_tag _ h
  have hrun : hasWsRun (stripEmotionTags t) = false := by
    unfold stripEmotionTags
    exact hasWsRun_pyStrip (collapseWsRunsF_no_run le_rfl)
  have h2 : collapseWsRuns (stripEmotionTags t) = stripEmotionTags t :=
    collapseWsRunsF_of_no_run _ hrun
  show pyStrip (collapseWsRuns (stripTagsOnce (stripEmotionTags t))) = stripEmotionTags t
  rw [h1, h2]
  exact pyStrip_idem _

/-- Concrete tagged sentence for the C10 witness. -/
def c10Wit : List Char :=
  ['[','j','o','y','e','u','x',']',' ','S','a','l','u','t',' ','!']

/-- Witness for C10: the amended idempotence applied to `"[joyeux] Salut !"`,
whose first pass (`"Salut !"`) contains no tag. -/
theorem C10_witness :
    containsEmoTag (stripEmotionTags c10Wit) = false ∧
    stripEmotionTags (stripEmotionTags c10Wit) = stripEmotionTags c10Wit :=
  ⟨by decide, C10_strip_tags_idem_amended c10Wit (by decide)⟩

/-! ### Conversation history and the two LLM backends

`OllamaLLM.generate_stream` (jarvis/llm/ollama.py) and
`GeminiLLM.generate_stream` (aethon/llm/gemini.py): history append rules,
`pop_last_user_message`, `_trim_history`, and the post-turn bookkeeping of
`AethonPipeline._respond_streaming`.  A generator has two distinct fates,
modeled separately:

* **drained** — the consumer iterates to `StopIteration`, so the generator's
  post-loop tail (flush, history append, `_trim_history`) executes.  This is
  every run of the HTTP endpoints, and every `_respond_streaming` run in
  which no sentence arrives after the barge-in flag is set (in particular
  every zero-yield run): the `for` loop only breaks upon receiving a
  sentence.  `ollamaGenerate`/`geminiGenerate` model drained runs; their
  `cancelAt` is the loop index at which the generator itself observes
  `_cancel_event` (reachable while a consumer keeps draining).

* **abandoned** — `_respond_streaming` observes the barge-in flag on a
  received sentence, calls `cancel()` and `break`s; dropping the `for` loop
  raises `GeneratorExit` at the generator's suspended `yield`, so *none* of
  the post-loop tail runs, for either backend: the history holds only the
  entry added by `add_user_message`.  `turnOllamaBreak`/`turnGeminiBreak`
  model abandoned runs, parameterised by the chunks processed before the
  suspension (`m`), whether the suspension was the flush yield (`atFlush`),
  and the sentences the orchestrator consumed before breaking (`consumed`). -/

inductive Role
  | system
  | user
  | assistant
  | model
deriving DecidableEq

structure Msg where
  role : Role
  content : List Char
deriving DecidableEq

/-- `pop_last_user_message` (identical in both backends): remove the final
entry when it is a user turn. -/
def popLastUserMsg (conv : List Msg) : List Msg :=
  match conv.getLast? with
  | some m => if m.role = Role.user then conv.dropLast else conv
  | none => conv

/-- Python `str.find(pat)` (index of the first occurrence, if any). -/
def findSubstr (pat : List Char) : List Char → Option Nat
  | [] => if pat.isPrefixOf ([] : List Char) then some 0 else none
  | c :: rest =>
    if pat.isPrefixOf (c :: rest) then some 0
    else (findSubstr pat rest).map (· + 1)

/-- Python `pat in s`. -/
def containsSub (pat s : List Char) : Bool := (findSubstr pat s).isSome

/-- `s.split(pat, 1)[0]`. -/
def beforeFirst (pat s : List Char) : List Char :=
  match findSubstr pat s with
  | some i => s.take i
  | none => s

/-- `s.split(pat, 1)[-1]`. -/
def afterFirst (pat s : List Char) : List Char :=
  match findSubstr pat s with
  | some i => s.drop (i + pat.length)
  | none => s

def thinkOpen : List Char := ['<','t','h','i','n','k','>']

def thinkClose : List Char := ['<','/','t','h','i','n','k','>']

/-- `re.sub(r"<think>.*?</think>", "", s, flags=re.DOTALL)`: repeatedly
remove the span from each `<think>` to the first following `</think>`. -/
def removeThinkF : Nat → List Char → List Char
  | 0, s => s
  | fuel + 1, s =>
    match findSubstr thinkOpen s with
    | none => s
    | some i =>
      match findSubstr thinkClose (s.drop (i + 7)) with
      | none => s
      | some j => s.take i ++ removeThinkF fuel (s.drop (i + 7 + j + 8))

def removeThink (s : List Char) : List Char := removeThinkF s.length s

/-- The inline split of `OllamaLLM.generate_stream`: sentence terminators
first (the buffer prefix is consumed even when it strips to empty), then —
only when no terminator was found — the early comma split for buffers of
≥ 60 characters with the separator at index ≥ 20. -/
def ollamaSplitYield (buffer : List Char) : Option (List Char) × List Char :=
  match lastIdxMem sentenceEnds buffer with
  | some i =>
    (if pyStrip (buffer.take (i + 1)) ≠ [] then some (pyStrip (buffer.take (i + 1))) else none,
      buffer.drop (i + 1))
  | none =>
    if buffer.length ≥ 60 then
      match lastIdxMem commaSeps buffer with
      | some i =>
        if i ≥ 20 then
          (if pyStrip (buffer.take (i + 1)) ≠ [] then some (pyStrip (buffer.take (i + 1))) else none,
            buffer.drop (i + 1))
        else (none, buffer)
      | none => (none, buffer)
    else (none, buffer)

structure OllSt where
  buffer : List Char
  emitted : List (List Char)
  current : List Char
  fullResponse : List Char
  inThink : Bool
deriving DecidableEq

def ollInit : OllSt := ⟨[], [], [], [], false⟩

/-- One loop iteration of `OllamaLLM.generate_stream` for a content token:
`full_response += token`, the `<think>` block filter (which skips the split
for that iteration), then `buffer += token` and the inline split. -/
def ollamaTokStep (st0 : OllSt) (tok : List Char) : OllSt :=
  let st := { st0 with fullResponse := st0.fullResponse ++ tok }
  if containsSub thinkOpen tok then
    let st1 := if beforeFirst thinkOpen tok ≠ [] then
        { st with buffer := st.buffer ++ beforeFirst thinkOpen tok } else st
    let st2 := { st1 with inThink := true }
    if containsSub thinkClose tok then
      let st3 := { st2 with inThink := false }
      if afterFirst thinkClose tok ≠ [] then
        { st3 with buffer := st3.buffer ++ afterFirst thinkClose tok } else st3
    else st2
  else if st.inThink then
    if containsSub thinkClose tok then
      let st1 := { st with inThink := false }
      if afterFirst thinkClose tok ≠ [] then
        { st1 with buffer := st1.buffer ++ afterFirst thinkClose tok } else st1
    else st
  else
    match ollamaSplitYield (st.buffer ++ tok) with
    | (some s, rest) =>
      { st with buffer := rest, emitted := st.emitted ++ [s],
                current := st.current ++ s ++ [' '] }
    | (none, rest) => { st with buffer := rest }

def ollamaRun (toks : List (List Char)) (cancelAt : Option Nat) : OllSt :=
  (takeProcessed toks cancelAt).foldl ollamaTokStep ollInit

/-- The post-loop flush of `OllamaLLM.generate_stream` — guarded by the
cancellation flag: a cancelled run drops the buffered tail. -/
def ollamaFlush (st : OllSt) (cancelled : Bool) : OllSt :=
  if cancelled then st
  else if pyStrip st.buffer ≠ [] then
    if pyStrip (removeThink (pyStrip st.buffer)) ≠ [] then
      { st with emitted := st.emitted ++ [pyStrip (removeThink (pyStrip st.buffer))],
                current := st.current ++ pyStrip (removeThink (pyStrip st.buffer)) ++ [' '] }
    else st
  else st

/-- `OllamaLLM._trim_history`: keep the system prompt plus the last
`20 * 2` messages. -/
def ollamaTrim (conv : List Msg) : List Msg :=
  if conv.length ≤ 1 + 20 * 2 then conv
  else conv.take 1 ++ conv.drop (conv.length - 20 * 2)

/-- `OllamaLLM.generate_stream`, history effect of a **drained** run (the
consumer reached `StopIteration`, so the post-loop tail executed): the
assistant entry (the full response with `<think>` blocks removed, stripped)
is appended only when it is nonempty **and** the run was not cancelled; the
history is then trimmed.  An abandoned run is `turnOllamaBreak`. -/
def ollamaGenerate (conv : List Msg) (toks : List (List Char))
    (cancelAt : Option Nat) : List Msg × OllSt :=
  let st := ollamaFlush (ollamaRun toks cancelAt) cancelAt.isSome
  let clean := pyStrip (removeThink st.fullResponse)
  let conv' := if clean ≠ [] ∧ cancelAt.isSome = false then
      conv ++ [⟨Role.assistant, clean⟩] else conv
  (ollamaTrim conv', st)

/-- `GeminiLLM._trim_history`: keep the last `20 * 2` messages (the system
prompt is carried out-of-band). -/
def geminiTrim (conv : List Msg) : List Msg :=
  if conv.length ≤ 20 * 2 then conv else conv.drop (conv.length - 20 * 2)

/-- `GeminiLLM.generate_stream`, history effect of a **drained** run: the
model entry (`full_text.strip()`) is appended whenever it is nonempty, and
the history is then trimmed — the tail has no cancellation guard, but it
only runs at all when the consumer drains the generator.  An abandoned run
is `turnGeminiBreak`. -/
def geminiGenerate (conv : List Msg) (toks : List (List Char))
    (cancelAt : Option Nat) : List Msg × GemSt :=
  let st := geminiStream toks cancelAt
  let conv' := if pyStrip st.fullText ≠ [] then
      conv ++ [⟨Role.model, pyStrip st.fullText⟩] else conv
  (geminiTrim conv', st)

/-- Post-turn bookkeeping of `AethonPipeline._respond_streaming`: the
orchestrator's `full_response` accumulates `strip_emotion_tags(sentence)`
for the sentences it consumed before observing the barge-in flag; if it is
empty the partial response (`get_partial_response`) is used; if that is also
empty and a barge-in occurred, the dangling user turn is popped. -/
def respondCleanup (conv : List Msg) (emitted : List (List Char))
    (current : List Char) (consumed : Nat) (bargeIn : Bool) : List Msg :=
  let fullResp := ((emitted.take consumed).map (fun s => stripEmotionTags s ++ [' '])).join
  let responseToSave := if pyStrip fullResp ≠ [] then pyStrip fullResp else pyStrip current
  if responseToSave = [] ∧ bargeIn then popLastUserMsg conv else conv

/-- One full turn against the Ollama backend with a **drained** generator:
`add_user_message`, the streamed generation running to completion, then the
pipeline's post-turn bookkeeping. -/
def turnOllama (conv : List Msg) (userText : List Char) (toks : List (List Char))
    (cancelAt : Option Nat) (consumed : Nat) (bargeIn : Bool) : List Msg :=
  let conv1 := conv ++ [⟨Role.user, userText⟩]
  let r := ollamaGenerate conv1 toks cancelAt
  respondCleanup r.1 r.2.emitted r.2.current consumed bargeIn

/-- One full turn against the Gemini backend with a drained generator. -/
def turnGemini (conv : List Msg) (userText : List Char) (toks : List (List Char))
    (cancelAt : Option Nat) (consumed : Nat) (bargeIn : Bool) : List Msg :=
  let conv1 := conv ++ [⟨Role.user, userText⟩]
  let r := geminiGenerate conv1 toks cancelAt
  respondCleanup r.1 r.2.emitted r.2.current consumed bargeIn

/-- Generator state of an **abandoned** Gemini run at its suspended yield:
`m` stream chunks were processed; `atFlush` marks a suspension at the
post-loop flush yield (reached only after all chunks) rather than at an
in-loop yield.  No cancellation index appears: `cancel()` immediately
precedes the `break`, so the generator never runs again to observe it. -/
def gemBreakSt (toks : List (List Char)) (m : Nat) (atFlush : Bool) : GemSt :=
  if atFlush then geminiStream (toks.take m) none else geminiProcess (toks.take m) none

/-- Generator state of an abandoned Ollama run at its suspended yield. -/
def ollBreakSt (toks : List (List Char)) (m : Nat) (atFlush : Bool) : OllSt :=
  if atFlush then ollamaFlush (ollamaRun (toks.take m) none) false
  else ollamaRun (toks.take m) none

/-- A barge-in turn against the Gemini backend: the consumer `break`s, the
generator is abandoned, so only `add_user_message` touched the history —
no model entry, no `_trim_history` — before the pipeline's `finally`
bookkeeping runs with the barge-in flag set. -/
def turnGeminiBreak (conv : List Msg) (userText : List Char)
    (toks : List (List Char)) (m consumed : Nat) (atFlush : Bool) : List Msg :=
  respondCleanup (conv ++ [⟨Role.user, userText⟩]) (gemBreakSt toks m atFlush).emitted
    (gemBreakSt toks m atFlush).current consumed true

/-- A barge-in turn against the Ollama backend (generator abandoned). -/
def turnOllamaBreak (conv : List Msg) (userText : List Char)
    (toks : List (List Char)) (m consumed : Nat) (atFlush : Bool) : List Msg :=
  respondCleanup (conv ++ [⟨Role.user, userText⟩]) (ollBreakSt toks m atFlush).emitted
    (ollBreakSt toks m atFlush).current consumed true

/-! ### C1 / C3 — history bookkeeping -/

theorem pyStrip_nil : pyStrip [] = [] := rfl

theorem pyStrip_eq_nil_of_allWS {l : List Char} (h : allWS l) : pyStrip l = [] := by
  have h1 : pyLStrip l = [] := by
    unfold pyLStrip
    exact List.dropWhile_eq_nil_iff.2 (fun a ha => h a ha)
  rw [pyStrip, h1]
  rfl

theorem geminiTrim_last_concat (l : List Msg) (m : Msg) :
    (geminiTrim (l ++ [m])).getLast? = some m := by
  unfold geminiTrim
  split_ifs with hlen
  · exact List.getLast?_concat _
  · have hk : (l ++ [m]).length - 20 * 2 ≤ l.length := by
      simp only [List.length_append, List.length_singleton]; omega
    rw [List.drop_append_of_le_length hk]
    exact List.getLast?_concat _

theorem ollamaTrim_last_concat (l : List Msg) (m : Msg) :
    (ollamaTrim (l ++ [m])).getLast? = some m := by
  unfold ollamaTrim
  split_ifs with hlen
  · exact List.getLast?_concat _
  · have hk : (l ++ [m]).length - 20 * 2 ≤ l.length := by
      simp only [List.length_append, List.length_singleton]; omega
    rw [List.drop_append_of_le_length hk, ← List.append_assoc]
    exact List.getLast?_concat _

theorem ollamaTrim_id {l : List Msg} (h : l.length ≤ 41) : ollamaTrim l = l := by
  unfold ollamaTrim
  rw [if_pos (by omega)]

theorem popLastUserMsg_concat_user (l : List Msg) (t : List Char) :
    popLastUserMsg (l ++ [Msg.mk Role.user t]) = l := by
  unfold popLastUserMsg
  rw [List.getLast?_concat]
  simp [List.dropLast_concat]

theorem respondCleanup_no_pop {conv : List Msg} {emitted : List (List Char)}
    {current : List Char} {consumed : Nat} {bargeIn : Bool}
    (h : pyStrip current ≠ []) :
    respondCleanup conv emitted current consumed bargeIn = conv := by
  simp only [respondCleanup]
  split_ifs with h1 h2 h3
  · exact absurd h2.1 h1
  · rfl
  · exact absurd h3.1 h
  · rfl

theorem respondCleanup_pop_of_empty {conv : List Msg} {consumed : Nat} :
    respondCleanup conv [] [] consumed true = popLastUserMsg conv := by
  simp [respondCleanup, pyStrip_nil]

/-- `_current_response` of the Ollama stream is exactly the yielded
sentences each followed by one space. -/
theorem ollamaTokStep_current {st : OllSt} (tok : List Char)
    (h : st.current = (st.emitted.map (fun s => s ++ [' '])).join) :
    (ollamaTokStep st tok).current =
      ((ollamaTokStep st tok).emitted.map (fun s => s ++ [' '])).join := by
  unfold ollamaTokStep
  by_cases h1 : containsSub thinkOpen tok
  · simp only [h1, if_true]
    split_ifs <;> simpa using h
  · by_cases h2 : st.inThink
    · simp only [h1, h2, if_false, if_true]
      split_ifs <;> simpa using h
    · simp only [h1, h2, if_false]
      rcases hy : ollamaSplitYield (st.buffer ++ tok) with ⟨o, rest⟩
      cases o with
      | none => simpa using h
      | some s => simp [h, List.append_assoc]

theorem ollamaRun_current (toks : List (List Char)) (cancelAt : Option Nat) :
    (ollamaRun toks cancelAt).current =
      ((ollamaRun toks cancelAt).emitted.map (fun s => s ++ [' '])).join := by
  unfold ollamaRun
  generalize takeProcessed toks cancelAt = ts
  suffices hs : ∀ (ts : List (List Char)) (st : OllSt),
      st.current = (st.emitted.map (fun s => s ++ [' '])).join →
      (ts.foldl ollamaTokStep st).current =
        ((ts.foldl ollamaTokStep st).emitted.map (fun s => s ++ [' '])).join by
    exact hs ts ollInit rfl
  intro ts
  induction ts with
  | nil => intro st h; exact h
  | cons t tt ih => intro st h; exact ih _ (ollamaTokStep_current t h)

theorem ollamaFlush_current {st : OllSt} (cancelled : Bool)
    (h : st.current = (st.emitted.map (fun s => s ++ [' '])).join) :
    (ollamaFlush st cancelled).current =
      ((ollamaFlush st cancelled).emitted.map (fun s => s ++ [' '])).join := by
  unfold ollamaFlush
  split_ifs <;> simp [h, List.append_assoc]

/-- If the Ollama stream emitted nothing, `_current_response` is empty. -/
theorem ollama_current_nil {toks : List (List Char)} {cancelAt : Option Nat}
    (h : (ollamaFlush (ollamaRun toks cancelAt) cancelAt.isSome).emitted = []) :
    (ollamaFlush (ollamaRun toks cancelAt) cancelAt.isSome).current = [] := by
  have := @ollamaFlush_current (ollamaRun toks cancelAt) cancelAt.isSome
    (ollamaRun_current toks cancelAt)
  rw [h] at this
  simpa using this

/-- The guarded-yield shape shared by both arms of the inline split. -/
theorem optPair_strip {t d s rest : List Char}
    (h : ((if pyStrip t ≠ [] then some (pyStrip t) else none : Option (List Char)), d) =
      (some s, rest)) :
    ∃ x, s = pyStrip x ∧ s ≠ [] := by
  rw [Prod.mk.injEq] at h
  obtain ⟨h4, _⟩ := h
  split_ifs at h4 with h2
  injection h4 with h4
  exact ⟨t, h4.symm, h4 ▸ h2⟩

/-- A sentence produced by the inline split is a nonempty `strip` image. -/
theorem ollamaSplitYield_strips {buffer s rest : List Char}
    (h : ollamaSplitYield buffer = (some s, rest)) :
    ∃ x, s = pyStrip x ∧ s ≠ [] := by
  unfold ollamaSplitYield at h
  rcases h1 : lastIdxMem sentenceEnds buffer with _ | i <;> rw [h1] at h <;>
    dsimp only at h
  · by_cases h2 : buffer.length ≥ 60
    · rw [if_pos h2] at h
      rcases h3 : lastIdxMem commaSeps buffer with _ | j <;> rw [h3] at h <;>
        dsimp only at h
      · simp at h
      · by_cases h4 : j ≥ 20
        · rw [if_pos h4] at h
          exact optPair_strip h
        · rw [if_neg h4] at h
          simp at h
    · rw [if_neg h2] at h
      simp at h
  · exact optPair_strip h

/-- All sentences yielded by the Ollama loop are nonempty strip images. -/
theorem ollamaTokStep_strips {st : OllSt} (tok : List Char)
    (h : ∀ s ∈ st.emitted, ∃ x, s = pyStrip x ∧ s ≠ []) :
    ∀ s ∈ (ollamaTokStep st tok).emitted, ∃ x, s = pyStrip x ∧ s ≠ [] := by
  unfold ollamaTokStep
  by_cases h1 : containsSub thinkOpen tok
  · simp only [h1, if_true]
    split_ifs <;> simpa using h
  · by_cases h2 : st.inThink
    · simp only [h1, h2, if_false, if_true]
      split_ifs <;> simpa using h
    · simp only [h1, h2, if_false]
      rcases hy : ollamaSplitYield (st.buffer ++ tok) with ⟨o, rest⟩
      cases o with
      | none => simpa using h
      | some s =>
        dsimp only
        intro u hu
        rcases List.mem_append.1 hu with hu | hu
        · exact h u hu
        · rw [List.mem_singleton] at hu
          subst hu
          exact ollamaSplitYield_strips hy

theorem ollamaRun_strips (toks : List (List Char)) (cancelAt : Option Nat) :
    ∀ s ∈ (ollamaRun toks cancelAt).emitted, ∃ x, s = pyStrip x ∧ s ≠ [] := by
  unfold ollamaRun
  generalize takeProcessed toks cancelAt = ts
  suffices hs : ∀ (ts : List (List Char)) (st : OllSt),
      (∀ s ∈ st.emitted, ∃ x, s = pyStrip x ∧ s ≠ []) →
      ∀ s ∈ (ts.foldl ollamaTokStep st).emitted, ∃ x, s = pyStrip x ∧ s ≠ [] by
    exact hs ts ollInit (fun s hs' => absurd hs' (List.not_mem_nil s))
  intro ts
  induction ts with
  | nil => intro st h; exact h
  | cons t tt ih => intro st h; exact ih _ (ollamaTokStep_strips t h)

theorem ollamaFlush_strips {st : OllSt} (cancelled : Bool)
    (h : ∀ s ∈ st.emitted, ∃ x, s = pyStrip x ∧ s ≠ []) :
    ∀ s ∈ (ollamaFlush st cancelled).emitted, ∃ x, s = pyStrip x ∧ s ≠ [] := by
  unfold ollamaFlush
  split_ifs with h1 h2 h3
  · exact h
  · intro u hu
    simp only [List.mem_append, List.mem_singleton] at hu
    rcases hu with hu | hu
    · exact h u hu
    · subst hu
      exact ⟨removeThink (pyStrip st.buffer), rfl, h3⟩
  · exact h
  · exact h

/-- `get_partial_response()` is nonempty as soon as one sentence was
yielded: each yielded sentence is a nonempty strip image, hence contains a
non-whitespace character, and `_current_response` concatenates them. -/
theorem current_strip_ne_nil {emitted : List (List Char)} {current : List Char}
    (hsegs : ∀ s ∈ emitted, ∃ x, s = pyStrip x ∧ s ≠ [])
    (hcur : current = (emitted.map (fun s => s ++ [' '])).join)
    (hne : emitted ≠ []) : pyStrip current ≠ [] := by
  obtain ⟨s, hs⟩ : ∃ s, s ∈ emitted := by
    cases he : emitted with
    | nil => exact absurd he hne
    | cons a t => exact ⟨a, he ▸ List.mem_cons_self a t⟩
  obtain ⟨x, hx, hxne⟩ := hsegs s hs
  obtain ⟨c, hc, hcws⟩ := @pyStrip_has_non_ws x (by rw [← hx]; exact hxne)
  rw [← hx] at hc
  apply @pyStrip_ne_nil_of_mem _ c _ hcws
  rw [hcur]
  exact List.mem_join.2 ⟨s ++ [' '], List.mem_map_of_mem _ hs, by simp [hc]⟩

/-- **C1 (amended).** History vs emitted text, with the generator's two
fates separated. (i)/(ii) A barge-in turn (`_respond_streaming` observes the
flag on a received sentence, calls `cancel()` and breaks, abandoning the
generator at its yield so none of its post-loop code runs): for **either**
backend, whenever at least one sentence was yielded, the history after the
turn is exactly the pre-turn history plus the dangling `user` entry — the
partial reply is *not* recorded and no assistant entry is appended, refuting
the claim's "partial reply is recorded" for both backends (the reply text
survives only outside the history, via `get_partial_response`, which is what
prevents the orphan-user pop). (iii) A drained Gemini turn that emitted at
least one segment ends with the turn's `model` entry carrying
`full_text.strip()`. (iv) A drained Gemini turn that emitted nothing,
without barge-in, ends with the dangling `user` entry. -/
theorem C1_history_vs_emitted_amended :
    (∀ (conv : List Msg) (text : List Char) (toks : List (List Char))
        (m consumed : Nat) (atFlush : Bool),
      (gemBreakSt toks m atFlush).emitted ≠ [] →
      turnGeminiBreak conv text toks m consumed atFlush =
        conv ++ [Msg.mk Role.user text]) ∧
    (∀ (conv : List Msg) (text : List Char) (toks : List (List Char))
        (m consumed : Nat) (atFlush : Bool),
      (ollBreakSt toks m atFlush).emitted ≠ [] →
      turnOllamaBreak conv text toks m consumed atFlush =
        conv ++ [Msg.mk Role.user text]) ∧
    (∀ (conv : List Msg) (text : List Char) (toks : List (List Char))
        (consumed : Nat) (bargeIn : Bool),
      (geminiStream toks none).emitted ≠ [] →
      (turnGemini conv text toks none consumed bargeIn).getLast? =
        some (Msg.mk Role.model (pyStrip (geminiStream toks none).fullText))) ∧
    (∀ (conv : List Msg) (text : List Char) (toks : List (List Char)) (consumed : Nat),
      (geminiStream toks none).emitted = [] →
      (turnGemini conv text toks none consumed false).getLast? =
        some (Msg.mk Role.user text)) := by
  refine ⟨?_, ?_, ?_, ?_⟩
  · intro conv text toks m consumed atFlush hemit
    unfold turnGeminiBreak
    apply respondCleanup_no_pop
    unfold gemBreakSt at hemit ⊢
    cases atFlush with
    | false =>
      simp only [Bool.false_eq_true, if_false] at hemit ⊢
      obtain ⟨_, hsegs, hcur⟩ := gemInv_process (toks.take m) none
      exact current_strip_ne_nil hsegs hcur hemit
    | true =>
      simp only [if_true] at hemit ⊢
      obtain ⟨_, hsegs, hcur⟩ := geminiStream_inv (toks.take m) none
      exact current_strip_ne_nil hsegs hcur hemit
  · intro conv text toks m consumed atFlush hemit
    unfold turnOllamaBreak
    apply respondCleanup_no_pop
    unfold ollBreakSt at hemit ⊢
    cases atFlush with
    | false =>
      simp only [Bool.false_eq_true, if_false] at hemit ⊢
      exact current_strip_ne_nil (ollamaRun_strips (toks.take m) none)
        (ollamaRun_current (toks.take m) none) hemit
    | true =>
      simp only [if_true] at hemit ⊢
      exact current_strip_ne_nil
        (ollamaFlush_strips false (ollamaRun_strips (toks.take m) none))
        (@ollamaFlush_current (ollamaRun (toks.take m) none) false
          (ollamaRun_current (toks.take m) none)) hemit
  · intro conv text toks consumed bargeIn hemit
    obtain ⟨hdec, hsegs, hcur⟩ := geminiStream_inv toks none
    obtain ⟨s, hs⟩ : ∃ s, s ∈ (geminiStream toks none).emitted := by
      cases he : (geminiStream toks none).emitted with
      | nil => exact absurd he hemit
      | cons a t => exact ⟨a, he ▸ List.mem_cons_self a t⟩
    obtain ⟨x, hx, hne⟩ := hsegs s hs
    obtain ⟨c, hc, hcws⟩ := @pyStrip_has_non_ws x (by rw [← hx]; exact hne)
    rw [← hx] at hc
    have hcfull : c ∈ (geminiProcess toks none).fullText :=
      segDecomp_mem hdec hs hc
    have hfull : pyStrip (geminiStream toks none).fullText ≠ [] := by
      rw [geminiStream, geminiFlush_fullText]
      exact pyStrip_ne_nil_of_mem hcfull hcws
    have hcurne : pyStrip (geminiStream toks none).current ≠ [] :=
      current_strip_ne_nil hsegs hcur hemit
    simp only [turnGemini, geminiGenerate]
    rw [respondCleanup_no_pop hcurne, if_pos hfull]
    exact geminiTrim_last_concat _ _
  · intro conv text toks consumed hemit
    obtain ⟨hdec, _, hcur⟩ := geminiStream_inv toks none
    rw [hemit] at hdec
    obtain ⟨w, hw, hfw⟩ := segDecomp_nil_inv hdec
    have hfull : pyStrip (geminiStream toks none).fullText = [] := by
      rw [geminiStream, geminiFlush_fullText]
      apply pyStrip_eq_nil_of_allWS
      rw [hfw, List.append_nil]
      exact hw
    simp only [turnGemini, geminiGenerate]
    rw [if_neg (by simp [hfull])]
    have hnopop : respondCleanup (geminiTrim (conv ++ [Msg.mk Role.user text]))
        (geminiStream toks none).emitted (geminiStream toks none).current consumed false =
        geminiTrim (conv ++ [Msg.mk Role.user text]) := by
      simp only [respondCleanup]
      split_ifs with h1 h2 h3
      · exact absurd h2.2 (by simp)
      · rfl
      · exact absurd h3.2 (by simp)
      · rfl
    rw [hnopop]
    exact geminiTrim_last_concat _ _

/-- Concrete token stream for the C1 counterexample: one chunk carrying a
complete sentence plus the beginning of the next one. -/
def c1Toks : List (List Char) :=
  [['B','o','n','j','o','u','r','.',' ','C','o']]

/-- **C1 (counterexample).** Against either backend, a turn in which the
stream yielded the sentence `"Bonjour."` (assistant text was emitted) and a
barge-in made the orchestrator cancel and break leaves the history ending
with the *user* entry: the partial reply is not recorded, refuting both the
"iff" and the "partial reply is recorded in the history" part of the
claim. -/
theorem C1_counterexample :
    (ollBreakSt c1Toks 1 false).emitted ≠ [] ∧
    (turnOllamaBreak [Msg.mk Role.system []] ['h','i'] c1Toks 1 1 false).getLast? =
      some (Msg.mk Role.user ['h','i']) ∧
    (gemBreakSt c1Toks 1 false).emitted ≠ [] ∧
    (turnGeminiBreak [Msg.mk Role.system []] ['h','i'] c1Toks 1 1 false).getLast? =
      some (Msg.mk Role.user ['h','i']) := by
  decide

/-- Witness for C1: conjunct (i) applied to a barge-in abandoning a Gemini
stream that had yielded one sentence. -/
theorem C1_witness :
    turnGeminiBreak [Msg.mk Role.system []] ['y','o']
        [['B','o','n','j','o','u','r','.']] 1 0 false =
      [Msg.mk Role.system [], Msg.mk Role.user ['y','o']] :=
  C1_history_vs_emitted_amended.1 [Msg.mk Role.system []] ['y','o']
    [['B','o','n','j','o','u','r','.']] 1 0 false (by decide)

/-- **C3 (amended).** (i) `pop_last_user_message` removes the final history
entry exactly when it is a user turn. (ii) For every turn whose emitted
response is empty while a barge-in occurred, the dangling user turn is
popped, and — provided the pre-turn history is below `_trim_history`'s
1 + 40-message bound — the history is unchanged from before the turn (at
the bound the trim additionally drops the oldest dialogue entry, see the
counterexample). -/
theorem C3_empty_response_pop_amended :
    (∀ (h : List Msg) (m : Msg), h.getLast? = some m →
      (m.role = Role.user → popLastUserMsg h = h.dropLast) ∧
      (m.role ≠ Role.user → popLastUserMsg h = h)) ∧
    (∀ (conv : List Msg) (text : List Char) (toks : List (List Char))
        (k consumed : Nat),
      conv.length ≤ 40 →
      (ollamaGenerate (conv ++ [Msg.mk Role.user text]) toks (some k)).2.emitted = [] →
      turnOllama conv text toks (some k) consumed true = conv) := by
  constructor
  · intro h m hlast
    constructor
    · intro hrole
      unfold popLastUserMsg
      rw [hlast]
      simp [hrole]
    · intro hrole
      unfold popLastUserMsg
      rw [hlast]
      simp [hrole]
  · intro conv text toks k consumed hlen hemit
    simp only [ollamaGenerate] at hemit
    have hcur := @ollama_current_nil toks (some k) (by simpa using hemit)
    simp only [turnOllama, ollamaGenerate]
    rw [if_neg (by simp)]
    rw [ollamaTrim_id (by simp only [List.length_append, List.length_singleton]; omega)]
    have hemit' : (ollamaFlush (ollamaRun toks (some k)) (some k).isSome).emitted = [] := by
      simpa using hemit
    rw [hemit', hcur]
    rw [respondCleanup_pop_of_empty]
    exact popLastUserMsg_concat_user conv text

/-- A full history at the trim bound: the system prompt plus 20 complete
dialogue turns (41 messages). -/
def c3Conv : List Msg :=
  Msg.mk Role.system [] ::
    (List.replicate 20 [Msg.mk Role.user ['x'], Msg.mk Role.assistant ['y']]).join

/-- **C3 (counterexample).** At the trim bound the history is *not* unchanged:
on a 41-message history, an empty-response barge-in turn passes through
`_trim_history` (which drops the oldest dialogue entry of the 42-message
list) before the dangling user turn is popped, so the resulting history has
40 messages instead of the original 41. -/
theorem C3_counterexample :
    turnOllama c3Conv ['z'] [] (some 0) 0 true ≠ c3Conv := by
  decide

/-- Witness for C3: conjunct (ii) applied to a short history with an
immediately-cancelled empty stream. -/
theorem C3_witness :
    turnOllama [Msg.mk Role.system []] ['h','i'] [] (some 0) 0 true =
      [Msg.mk Role.system []] :=
  C3_empty_response_pop_amended.2 [Msg.mk Role.system []] ['h','i'] [] 0 0
    (by decide) (by decide)

/-! ### Barge-in monitor — `AethonPipeline._monitor_barge_in`

One fold step per capture read (`get_audio_chunk` with timeout): `none` is a
timeout, `some c` a captured chunk carrying the environment at read time
(`is_playing`), its RMS, and the VAD confidence (`_is_speech` at threshold
0.75 compares the model's confidence; the model-unloaded / exception
fallbacks of `_is_speech` are outside this model).  The monitor loop exits
on detection or on `_response_done`; a finite event list models the reads
until exit. -/

structure BChunk where
  playing : Bool
  rms : ℚ
  vadConf : ℚ
deriving DecidableEq

structure MonSt where
  consecutive : Nat
  speech : List BChunk
  warmup : Nat
  wasPlaying : Bool
  detected : Bool
  buffer : List BChunk
  playbackStopped : Bool
deriving DecidableEq

def monInit : MonSt := ⟨0, [], 0, false, false, [], false⟩

/-- `min_energy_rms = 0.05` (written via the raw constructor so that the
kernel can evaluate comparisons; `minEnergyRms_eq` relates it to `1/20`). -/
def minEnergyRms : ℚ := ⟨1, 20, by norm_num, by simp⟩

/-- The barge-in VAD threshold `0.75`. -/
def bargeVadThreshold : ℚ := ⟨3, 4, by norm_num, by norm_num⟩

theorem minEnergyRms_eq : minEnergyRms = 1/20 := by
  rw [minEnergyRms, Rat.mk'_eq_divInt, Rat.divInt_eq_div]
  norm_num

theorem bargeVadThreshold_eq : bargeVadThreshold = 3/4 := by
  rw [bargeVadThreshold, Rat.mk'_eq_divInt, Rat.divInt_eq_div]
  norm_num

/-- Past the warm-up: the energy gate (`rms > min_energy_rms = 0.05`), the
strict VAD (`threshold = 0.75`), the consecutive counter (reset on any
non-qualifying chunk), and on the 10th consecutive qualifying chunk the
snapshot + flag + `stop_playback`. -/
def monAfterWarm (st : MonSt) (c : BChunk) : MonSt :=
  if st.warmup ≤ 10 then st
  else if c.rms > minEnergyRms ∧ c.vadConf > bargeVadThreshold then
    if st.consecutive + 1 ≥ 10 then
      { st with consecutive := st.consecutive + 1, speech := st.speech ++ [c],
                detected := true, buffer := st.speech ++ [c], playbackStopped := true }
    else
      { st with consecutive := st.consecutive + 1, speech := st.speech ++ [c] }
  else { st with consecutive := 0, speech := [] }

/-- A chunk read while playback is active: reset the warm-up counter on the
false→true playback transition, then count it and apply the gates. -/
def monPlayStep (st : MonSt) (c : BChunk) : MonSt :=
  if st.wasPlaying = false then
    monAfterWarm { st with wasPlaying := true, warmup := 0 + 1 } c
  else
    monAfterWarm { st with warmup := st.warmup + 1 } c

/-- One iteration of the monitor loop. -/
def monStep (st : MonSt) (ev : Option BChunk) : MonSt :=
  if st.detected then st
  else
    match ev with
    | none => { st with consecutive := 0, speech := [] }
    | some c =>
      if c.playing = false then
        { st with consecutive := 0, speech := [], wasPlaying := false, warmup := 0 }
      else monPlayStep st c

def monRun (events : List (Option BChunk)) : MonSt := events.foldl monStep monInit

theorem monRun_append (l : List (Option BChunk)) (e : Option BChunk) :
    monRun (l ++ [e]) = monStep (monRun l) e := by
  simp [monRun, List.foldl_append]

/-- A qualifying read: captured while playing, above the energy gate,
classified as speech by the strict VAD. -/
def monGood (e : Option BChunk) : Prop :=
  ∃ c, e = some c ∧ c.playing = true ∧ c.rms > minEnergyRms ∧ c.vadConf > bargeVadThreshold

/-- Invariant while undetected: the monitor's `speech_chunks` are exactly
the qualifying chunks of a trailing run of the processed events, the
counter equals their number (< 10), nothing was snapshotted, and a nonempty
run started past the warm-up. -/
def monUndetectedInv (evs : List (Option BChunk)) (st : MonSt) : Prop :=
  ∃ pre, evs = pre ++ st.speech.map some ∧
    (∀ c ∈ st.speech, c.playing = true ∧ c.rms > minEnergyRms ∧ c.vadConf > bargeVadThreshold) ∧
    st.consecutive = st.speech.length ∧ st.consecutive ≤ 9 ∧
    st.buffer = [] ∧ st.playbackStopped = false ∧
    (st.speech ≠ [] →
      10 ≤ (monRun pre).warmup ∧ (monRun pre).wasPlaying = true ∧
      (monRun pre).detected = false ∧ st.wasPlaying = true ∧
      10 + st.speech.length ≤ st.warmup)

/-- Invariant once detected: the events decompose around a run of exactly
10 consecutive qualifying reads, entered past the warm-up; exactly those
chunks are snapshotted and playback was stopped. -/
def monDetectedInv (evs : List (Option BChunk)) (st : MonSt) : Prop :=
  ∃ pre run rest, evs = pre ++ run ++ rest ∧ run.length = 10 ∧
    (∀ e ∈ run, monGood e) ∧
    st.buffer.map some = run ∧ st.playbackStopped = true ∧
    10 ≤ (monRun pre).warmup ∧ (monRun pre).wasPlaying = true ∧
    (monRun pre).detected = false

theorem monRun_inv (evs : List (Option BChunk)) :
    ((monRun evs).detected = false → monUndetectedInv evs (monRun evs)) ∧
    ((monRun evs).detected = true → monDetectedInv evs (monRun evs)) := by
  induction evs using List.reverseRecOn with
  | nil =>
    constructor
    · intro _
      exact ⟨[], by simp [monRun, monInit], by simp [monRun, monInit], rfl,
        by norm_num [monRun, monInit], rfl, rfl, by simp [monRun, monInit]⟩
    · intro h
      simp [monRun, monInit] at h
  | append_singleton l e ih =>
    rw [monRun_append]
    by_cases hdet : (monRun l).detected = true
    · have hstep : monStep (monRun l) e = monRun l := by
        unfold monStep; rw [if_pos hdet]
      rw [hstep]
      refine ⟨fun hfalse => absurd hdet (by simp [hfalse]), fun _ => ?_⟩
      obtain ⟨pre, run, rest, hsplit, hlen, hgood, hbuf, hstop, hw, hwp, hd⟩ := ih.2 hdet
      exact ⟨pre, run, rest ++ [e], by rw [hsplit]; simp, hlen, hgood, hbuf, hstop, hw, hwp, hd⟩
    · have hdf : (monRun l).detected = false := by simpa using hdet
      obtain ⟨pre, hsplit, hgood, hcons, hle9, hbuf, hstop, hrunpre⟩ := ih.1 hdf
      cases e with
      | none =>
        have hstep : monStep (monRun l) none =
            { monRun l with consecutive := 0, speech := [] } := by
          unfold monStep; rw [if_neg hdet]
        rw [hstep]
        constructor
        · intro _
          exact ⟨l ++ [none], by simp, by simp, rfl, by norm_num, hbuf, hstop, by simp⟩
        · intro habs
          exact absurd habs (by simp [hdf])
      | some c =>
        by_cases hp : c.playing = false
        · have hstep : monStep (monRun l) (some c) =
              { monRun l with consecutive := 0, speech := [],
                              wasPlaying := false, warmup := 0 } := by
            unfold monStep; rw [if_neg hdet]; dsimp only; rw [if_pos hp]
          rw [hstep]
          constructor
          · intro _
            exact ⟨l ++ [some c], by simp, by simp, rfl, by norm_num, hbuf, hstop, by simp⟩
          · intro habs
            exact absurd habs (by simp [hdf])
        · have hpt : c.playing = true := by simpa using hp
          have hstep : monStep (monRun l) (some c) = monPlayStep (monRun l) c := by
            unfold monStep; rw [if_neg hdet]; dsimp only; rw [if_neg hp]
          rw [hstep]
          by_cases hwpl : (monRun l).wasPlaying = false
          · -- playback just started: fresh warm-up, so the chunk is absorbed
            have hsp : (monRun l).speech = [] := by
              by_contra hne
              exact absurd ((hrunpre hne).2.2.2.1) (by simp [hwpl])
            have hplay : monPlayStep (monRun l) c =
                { monRun l with wasPlaying := true, warmup := 0 + 1 } := by
              unfold monPlayStep
              rw [if_pos hwpl]
              unfold monAfterWarm
              rw [if_pos (by norm_num)]
            rw [hplay]
            constructor
            · intro _
              exact ⟨l ++ [some c], by simp [hsp], by simp [hsp], by simp [hcons, hsp],
                by norm_num [hcons, hsp], hbuf, hstop, fun hne => absurd hsp hne⟩
            · intro habs
              exact absurd habs (by simp [hdf])
          · have hwpt : (monRun l).wasPlaying = true := by simpa using hwpl
            have hplay : monPlayStep (monRun l) c =
                monAfterWarm { monRun l with warmup := (monRun l).warmup + 1 } c := by
              unfold monPlayStep; rw [if_neg hwpl]
            rw [hplay]
            by_cases hwu : ({ monRun l with warmup := (monRun l).warmup + 1 } : MonSt).warmup ≤ 10
            · -- still inside the 10-chunk warm-up: chunk ignored
              have hwu' : (monRun l).warmup + 1 ≤ 10 := hwu
              have hsp : (monRun l).speech = [] := by
                by_contra hne
                have h5 := (hrunpre hne).2.2.2.2
                have h6 : 1 ≤ (monRun l).speech.length := List.length_pos.2 hne
                omega
              have haw : monAfterWarm { monRun l with warmup := (monRun l).warmup + 1 } c =
                  { monRun l with warmup := (monRun l).warmup + 1 } := by
                unfold monAfterWarm; rw [if_pos hwu]
              rw [haw]
              constructor
              · intro _
                exact ⟨l ++ [some c], by simp [hsp], by simp [hsp], by simp [hcons, hsp],
                  by norm_num [hcons, hsp], hbuf, hstop, by simp [hsp]⟩
              · intro habs
                exact absurd habs (by simp [hdf])
            · have hw10 : 10 ≤ (monRun l).warmup := by
                simp only [not_le] at hwu
                omega
              -- pre-run facts hold for the current prefix when the run is empty
              have hprefacts : (monRun l).speech = [] → pre = l := by
                intro hsp
                rw [hsp] at hsplit
                simpa using hsplit.symm
              by_cases hq : c.rms > minEnergyRms ∧ c.vadConf > bargeVadThreshold
              · by_cases hc10 :
                    ({ monRun l with warmup := (monRun l).warmup + 1 } : MonSt).consecutive + 1 ≥ 10
                · -- 10th consecutive qualifying chunk: detection
                  have haw : monAfterWarm { monRun l with warmup := (monRun l).warmup + 1 } c =
                      { monRun l with warmup := (monRun l).warmup + 1,
                                      consecutive := (monRun l).consecutive + 1,
                                      speech := (monRun l).speech ++ [c],
                                      detected := true,
                                      buffer := (monRun l).speech ++ [c],
                                      playbackStopped := true } := by
                    unfold monAfterWarm; rw [if_neg hwu, if_pos hq, if_pos hc10]
                  rw [haw]
                  constructor
                  · intro habs
                    simp at habs
                  · intro _
                    refine ⟨pre, (monRun l).speech.map some ++ [some c], [], ?_, ?_, ?_, ?_, rfl,
                      ?_, ?_, ?_⟩
                    · conv_lhs => rw [hsplit]
                      simp [List.append_assoc]
                    · have hc10' : (monRun l).consecutive + 1 ≥ 10 := hc10
                      simp only [List.length_append, List.length_map, List.length_singleton]
                      omega
                    · intro x hx
                      rcases List.mem_append.1 hx with hx | hx
                      · obtain ⟨c', hc', hxeq⟩ := List.mem_map.1 hx
                        obtain ⟨h1, h2, h3⟩ := hgood c' hc'
                        exact ⟨c', hxeq.symm, h1, h2, h3⟩
                      · rw [List.mem_singleton.1 hx]
                        exact ⟨c, rfl, hpt, hq.1, hq.2⟩
                    · simp
                    · rcases hspc : (monRun l).speech with _ | ⟨s0, ss⟩
                      · rw [hprefacts hspc]; exact hw10
                      · exact (hrunpre (by rw [hspc]; simp)).1
                    · rcases hspc : (monRun l).speech with _ | ⟨s0, ss⟩
                      · rw [hprefacts hspc]; exact hwpt
                      · exact (hrunpre (by rw [hspc]; simp)).2.1
                    · rcases hspc : (monRun l).speech with _ | ⟨s0, ss⟩
                      · rw [hprefacts hspc]; exact hdf
                      · exact (hrunpre (by rw [hspc]; simp)).2.2.1
                · -- a qualifying chunk extends the run
                  have haw : monAfterWarm { monRun l with warmup := (monRun l).warmup + 1 } c =
                      { monRun l with warmup := (monRun l).warmup + 1,
                                      consecutive := (monRun l).consecutive + 1,
                                      speech := (monRun l).speech ++ [c] } := by
                    unfold monAfterWarm; rw [if_neg hwu, if_pos hq, if_neg hc10]
                  rw [haw]
                  constructor
                  · intro _
                    refine ⟨pre, ?_, ?_, ?_, ?_, hbuf, hstop, ?_⟩
                    · conv_lhs => rw [hsplit]
                      simp [List.append_assoc]
                    · intro c' hc'
                      rcases List.mem_append.1 hc' with hc' | hc'
                      · exact hgood c' hc'
                      · rw [List.mem_singleton.1 hc']
                        exact ⟨hpt, hq.1, hq.2⟩
                    · show (monRun l).consecutive + 1 = ((monRun l).speech ++ [c]).length
                      simp [hcons]
                    · have hc10' : ¬ (monRun l).consecutive + 1 ≥ 10 := hc10
                      show (monRun l).consecutive + 1 ≤ 9
                      omega
                    · intro _
                      refine ⟨?_, ?_, ?_, hwpt, ?_⟩
                      · rcases hspc : (monRun l).speech with _ | ⟨s0, ss⟩
                        · rw [hprefacts hspc]; exact hw10
                        · exact (hrunpre (by rw [hspc]; simp)).1
                      · rcases hspc : (monRun l).speech with _ | ⟨s0, ss⟩
                        · rw [hprefacts hspc]; exact hwpt
                        · exact (hrunpre (by rw [hspc]; simp)).2.1
                      · rcases hspc : (monRun l).speech with _ | ⟨s0, ss⟩
                        · rw [hprefacts hspc]; exact hdf
                        · exact (hrunpre (by rw [hspc]; simp)).2.2.1
                      · show 10 + ((monRun l).speech ++ [c]).length ≤ (monRun l).warmup + 1
                        rcases hspc : (monRun l).speech with _ | ⟨s0, ss⟩
                        · simp only [List.length_append, List.length_singleton, hspc,
                            List.length_nil]
                          omega
                        · have h5 := (hrunpre (by rw [hspc]; simp)).2.2.2.2
                          rw [hspc] at h5
                          simp only [List.length_append, List.length_singleton]
                          omega
                  · intro habs
                    exact absurd habs (by simp [hdf])
              · -- non-qualifying chunk: reset
                have haw : monAfterWarm { monRun l with warmup := (monRun l).warmup + 1 } c =
                    { monRun l with warmup := (monRun l).warmup + 1,
                                    consecutive := 0, speech := [] } := by
                  unfold monAfterWarm; rw [if_neg hwu, if_neg hq]
                rw [haw]
                constructor
                · intro _
                  exact ⟨l ++ [some c], by simp, by simp, rfl, by norm_num, hbuf, hstop, by simp⟩
                · intro habs
                  exact absurd habs (by simp [hdf])

/-- **C4.** The barge-in flag is set only after at least 10 consecutive
qualifying chunk reads — each captured while playback was active, past the
10-chunk warm-up after playback start (the monitor's warm-up counter already
exceeded 10 when the run began), with RMS above the 0.05 energy gate and VAD
confidence above the 0.75 threshold, the counter being reset by any
non-qualifying read — and when the flag is set, exactly those qualifying
chunks are snapshotted into the barge-in buffer and playback is stopped. -/
theorem C4_barge_in_confirmation (events : List (Option BChunk))
    (h : (monRun events).detected = true) :
    minEnergyRms = 1/20 ∧ bargeVadThreshold = 3/4 ∧
    ∃ pre run rest, events = pre ++ run ++ rest ∧ run.length = 10 ∧
      (∀ e ∈ run, ∃ c, e = some c ∧ c.playing = true ∧
        c.rms > minEnergyRms ∧ c.vadConf > bargeVadThreshold) ∧
      (monRun events).buffer.map some = run ∧
      (monRun events).playbackStopped = true ∧
      10 ≤ (monRun pre).warmup ∧ (monRun pre).wasPlaying = true := by
  obtain ⟨pre, run, rest, h1, h2, h3, h4, h5, h6, h7, _⟩ := (monRun_inv events).2 h
  exact ⟨minEnergyRms_eq, bargeVadThreshold_eq,
    pre, run, rest, h1, h2, h3, h4, h5, h6, h7⟩

/-- A loud, clearly-voiced chunk read during playback. -/
def c4Chunk : BChunk := ⟨true, 1, 1⟩

/-- 20 playback reads: 10 absorbed by the warm-up, then 10 qualifying. -/
def c4Events : List (Option BChunk) := List.replicate 20 (some c4Chunk)

/-- Witness for C4: the detection decomposition on a concrete 20-read trace. -/
theorem C4_witness :
    minEnergyRms = 1/20 ∧ bargeVadThreshold = 3/4 ∧
    ∃ pre run rest, c4Events = pre ++ run ++ rest ∧ run.length = 10 ∧
      (∀ e ∈ run, ∃ c, e = some c ∧ c.playing = true ∧
        c.rms > minEnergyRms ∧ c.vadConf > bargeVadThreshold) ∧
      (monRun c4Events).buffer.map some = run ∧
      (monRun c4Events).playbackStopped = true ∧
      10 ≤ (monRun pre).warmup ∧ (monRun pre).wasPlaying = true :=
  C4_barge_in_confirmation c4Events (by decide)

/-! ### Utterance collector — `AethonPipeline._collect_speech`

Chunks carry their samples and the VAD verdict at the default 0.5 threshold.
Each loop read is `none` (a 150 ms `get_audio_chunk` timeout) or a chunk;
the loop ends on the silence timeout or at the end of the read list
(shutdown).  Chunk concatenation (`np.concatenate`) is the flattening of the
sample lists. -/

structure ColChunk where
  samples : List Int
  speech : Bool
deriving DecidableEq

structure ColCfg where
  chunkMs : Nat
  silenceTimeoutMs : Nat
  minSpeechMs : Nat
deriving DecidableEq

/-- The collection loop: every received chunk is appended; speech chunks
reset the silence counter and add `chunk_duration_ms` of speech time;
timeouts add 150 ms of silence. -/
def collectLoop (cfg : ColCfg) :
    List (Option ColChunk) → List ColChunk → Nat → Nat → List ColChunk × Nat
  | [], chunks, speechMs, _ => (chunks, speechMs)
  | none :: rest, chunks, speechMs, silenceMs =>
    if silenceMs + 150 ≥ cfg.silenceTimeoutMs then (chunks, speechMs)
    else collectLoop cfg rest chunks speechMs (silenceMs + 150)
  | some c :: rest, chunks, speechMs, silenceMs =>
    if c.speech then collectLoop cfg rest (chunks ++ [c]) (speechMs + cfg.chunkMs) 0
    else if silenceMs + cfg.chunkMs ≥ cfg.silenceTimeoutMs then (chunks ++ [c], speechMs)
    else collectLoop cfg rest (chunks ++ [c]) speechMs (silenceMs + cfg.chunkMs)

/-- `_collect_speech`: barge-in continuation mode (`initial_chunks`, all
counted as speech), normal mode (`first_chunk`, VAD-gated), the loop, and
the final `min_speech_ms` check. -/
def collectSpeech (cfg : ColCfg) (firstChunk : Option ColChunk)
    (initialChunks : List ColChunk) (events : List (Option ColChunk)) :
    Option (List Int) :=
  match initialChunks with
  | _ :: _ =>
    let r := collectLoop cfg events initialChunks (initialChunks.length * cfg.chunkMs) 0
    if r.2 < cfg.minSpeechMs then none else some ((r.1.map (fun c => c.samples)).join)
  | [] =>
    match firstChunk with
    | some c =>
      if c.speech = false then none
      else
        let r := collectLoop cfg events [c] cfg.chunkMs 0
        if r.2 < cfg.minSpeechMs then none else some ((r.1.map (fun c => c.samples)).join)
    | none => none

/-- Specification-side accounting (from the claim's words): the chunks
collected before termination, as a standalone recursion. -/
def specChunks (cfg : ColCfg) (silenceMs : Nat) : List (Option ColChunk) → List ColChunk
  | [] => []
  | none :: rest =>
    if silenceMs + 150 ≥ cfg.silenceTimeoutMs then []
    else specChunks cfg (silenceMs + 150) rest
  | some c :: rest =>
    c :: (if c.speech then specChunks cfg 0 rest
          else if silenceMs + cfg.chunkMs ≥ cfg.silenceTimeoutMs then []
          else specChunks cfg (silenceMs + cfg.chunkMs) rest)

/-- Specification-side accumulated speech time. -/
def specSpeechMs (cfg : ColCfg) (silenceMs : Nat) : List (Option ColChunk) → Nat
  | [] => 0
  | none :: rest =>
    if silenceMs + 150 ≥ cfg.silenceTimeoutMs then 0
    else specSpeechMs cfg (silenceMs + 150) rest
  | some c :: rest =>
    if c.speech then cfg.chunkMs + specSpeechMs cfg 0 rest
    else if silenceMs + cfg.chunkMs ≥ cfg.silenceTimeoutMs then 0
    else specSpeechMs cfg (silenceMs + cfg.chunkMs) rest

/-- The loop refines the specification-side accounting. -/
theorem collectLoop_spec (cfg : ColCfg) (events : List (Option ColChunk)) :
    ∀ (chunks : List ColChunk) (speechMs silenceMs : Nat),
    collectLoop cfg events chunks speechMs silenceMs =
      (chunks ++ specChunks cfg silenceMs events,
        speechMs + specSpeechMs cfg silenceMs events) := by
  induction events with
  | nil => intro chunks speechMs silenceMs; simp [collectLoop, specChunks, specSpeechMs]
  | cons e rest ih =>
    intro chunks speechMs silenceMs
    cases e with
    | none =>
      rw [collectLoop, specChunks, specSpeechMs]
      split_ifs with h
      · simp
      · rw [ih]
    | some c =>
      rw [collectLoop, specChunks, specSpeechMs]
      split_ifs with h1 h2
      · rw [ih]
        simp [List.append_assoc]
        omega
      · simp
      · rw [ih]
        simp [List.append_assoc]

/-- The collected chunks of a full `_collect_speech` call. -/
def collectedChunks (cfg : ColCfg) (firstChunk : Option ColChunk)
    (initialChunks : List ColChunk) (events : List (Option ColChunk)) : List ColChunk :=
  match initialChunks with
  | _ :: _ => initialChunks ++ specChunks cfg 0 events
  | [] =>
    match firstChunk with
    | some c => if c.speech then c :: specChunks cfg 0 events else []
    | none => []

/-- The accumulated speech time of a full `_collect_speech` call. -/
def collectedSpeechMs (cfg : ColCfg) (firstChunk : Option ColChunk)
    (initialChunks : List ColChunk) (events : List (Option ColChunk)) : Nat :=
  match initialChunks with
  | _ :: _ => initialChunks.length * cfg.chunkMs + specSpeechMs cfg 0 events
  | [] =>
    match firstChunk with
    | some c => if c.speech then cfg.chunkMs + specSpeechMs cfg 0 events else 0
    | none => 0

/-- **C9.** For every utterance collection (normal first-chunk mode or
barge-in continuation) with a positive `min_speech_ms` (default 300 ms),
the collector returns nothing exactly when the accumulated speech time at
termination is below `min_speech_ms`, and otherwise returns the
concatenation of all collected chunks. -/
theorem C9_collector_discard (cfg : ColCfg) (firstChunk : Option ColChunk)
    (initialChunks : List ColChunk) (events : List (Option ColChunk))
    (hmin : 0 < cfg.minSpeechMs) :
    (collectSpeech cfg firstChunk initialChunks events = none ↔
      collectedSpeechMs cfg firstChunk initialChunks events < cfg.minSpeechMs) ∧
    (∀ samples, collectSpeech cfg firstChunk initialChunks events = some samples →
      samples = ((collectedChunks cfg firstChunk initialChunks events).map
        (fun c => c.samples)).join) := by
  match initialChunks with
  | i :: is =>
    simp only [collectSpeech, collectedSpeechMs, collectedChunks,
      collectLoop_spec cfg events]
    constructor
    · split_ifs with h
      · exact iff_of_true rfl h
      · exact iff_of_false (by simp) h
    · intro samples hsome
      split_ifs at hsome with h <;> cases hsome <;> simp
  | [] =>
    match firstChunk with
    | some c =>
      by_cases hcsp : c.speech = false
      · have hcs : collectSpeech cfg (some c) [] events = none := by
          simp only [collectSpeech]
          rw [if_pos hcsp]
        have hms : collectedSpeechMs cfg (some c) [] events = 0 := by
          simp [collectedSpeechMs, hcsp]
        rw [hcs, hms]
        exact ⟨iff_of_true rfl hmin, fun samples hsome => by cases hsome⟩
      · have hcsp' : c.speech = true := by simpa using hcsp
        have hcs : collectSpeech cfg (some c) [] events =
            (if cfg.chunkMs + specSpeechMs cfg 0 events < cfg.minSpeechMs then none
             else some ((([c] ++ specChunks cfg 0 events).map (fun c => c.samples)).join)) := by
          simp only [collectSpeech]
          rw [if_neg (by simp [hcsp']), collectLoop_spec cfg events]
        have hms : collectedSpeechMs cfg (some c) [] events =
            cfg.chunkMs + specSpeechMs cfg 0 events := by
          simp [collectedSpeechMs, hcsp']
        have hch : collectedChunks cfg (some c) [] events = c :: specChunks cfg 0 events := by
          simp [collectedChunks, hcsp']
        rw [hcs, hms, hch]
        constructor
        · split_ifs with h
          · exact iff_of_true rfl h
          · exact iff_of_false (by simp) h
        · intro samples hsome
          split_ifs at hsome with h <;> cases hsome <;> simp
    | none =>
      have hcs : collectSpeech cfg none [] events = none := by
        simp only [collectSpeech]
      have hms : collectedSpeechMs cfg none [] events = 0 := by
        simp [collectedSpeechMs]
      rw [hcs, hms]
      exact ⟨iff_of_true rfl hmin, fun samples hsome => by cases hsome⟩

/-- A 2-second config (defaults): 32 ms chunks, 500 ms silence timeout,
300 ms minimum speech. -/
def c9Cfg : ColCfg := ⟨32, 500, 300⟩

/-- Witness for C9: a concrete collection — a speech first chunk, nine more
speech chunks, then silence: 320 ms ≥ 300 ms, so the concatenation of all
collected chunks is returned. -/
theorem C9_witness :
    (collectSpeech c9Cfg (some ⟨[1], true⟩) []
        (List.replicate 9 (some ⟨[2], true⟩) ++ List.replicate 20 none) = none ↔
      collectedSpeechMs c9Cfg (some ⟨[1], true⟩) []
        (List.replicate 9 (some ⟨[2], true⟩) ++ List.replicate 20 none) < c9Cfg.minSpeechMs) ∧
    (∀ samples, collectSpeech c9Cfg (some ⟨[1], true⟩) []
        (List.replicate 9 (some ⟨[2], true⟩) ++ List.replicate 20 none) = some samples →
      samples = ((collectedChunks c9Cfg (some ⟨[1], true⟩) []
        (List.replicate 9 (some ⟨[2], true⟩) ++ List.replicate 20 none)).map
          (fun c => c.samples)).join) :=
  C9_collector_discard c9Cfg (some ⟨[1], true⟩) []
    (List.replicate 9 (some ⟨[2], true⟩) ++ List.replicate 20 none) (by decide)

/-! ### HTTP control surface — `AethonAPIServer` (aethon/api/server.py)

`_handle_command` / `_execute_command` and `_handle_speak` /
`_execute_speak`.  The shared LLM mutex acquisition
(`_llm_lock.acquire(timeout=1.0)`) is represented by its outcome
(`acquired`); the pipeline's LLM handle is represented by its conversation
history and the pending token stream; the 60-second `asyncio.wait_for` of
`/speak` by its outcome (`timedOut`).  Status codes are the returned HTTP
codes. -/

/-- `_execute_command`: `None` (→ 409) without touching anything when the
lock times out; otherwise `add_user_message` + `generate_stream` +
`" ".join(sentences)`. -/
def executeCommand (acquired : Bool) (conv : List Msg) (text : List Char)
    (toks : List (List Char)) : Option (List Char) × List Msg :=
  if acquired = false then (none, conv)
  else
    let r := ollamaGenerate (conv ++ [Msg.mk Role.user text]) toks none
    (some (List.intercalate [' '] r.2.emitted), r.1)

/-- `_handle_command`: 400 on bad JSON or empty text, 409 when
`_execute_command` reports the busy pipeline, 200 otherwise. -/
def handleCommand (jsonOk : Bool) (rawText : List Char) (acquired : Bool)
    (conv : List Msg) (toks : List (List Char)) : Nat × List Msg :=
  if jsonOk = false then (400, conv)
  else if pyStrip rawText = [] then (400, conv)
  else
    match executeCommand acquired conv (pyStrip rawText) toks with
    | (none, conv') => (409, conv')
    | (some _, conv') => (200, conv')

/-- `_execute_speak`: like `_execute_command` but the response text strips
the emotion tags of each sentence (the WAV body is out of scope here). -/
def executeSpeak (acquired : Bool) (conv : List Msg) (text : List Char)
    (toks : List (List Char)) : Option (List Char) × List Msg :=
  if acquired = false then (none, conv)
  else
    let r := ollamaGenerate (conv ++ [Msg.mk Role.user text]) toks none
    (some (List.intercalate [' '] (r.2.emitted.map stripEmotionTags)), r.1)

/-- `_handle_speak`: 400 / 504 on timeout / 409 busy / 200. -/
def handleSpeak (jsonOk : Bool) (rawText : List Char) (acquired timedOut : Bool)
    (conv : List Msg) (toks : List (List Char)) : Nat × List Msg :=
  if jsonOk = false then (400, conv)
  else if pyStrip rawText = [] then (400, conv)
  else
    let r := executeSpeak acquired conv (pyStrip rawText) toks
    if timedOut then (504, r.2)
    else
      match r.1 with
      | none => (409, r.2)
      | some _ => (200, r.2)

/-- **C5.** Both `/command` and `/speak` attempt the shared LLM mutex (with
the 1-second timeout of `_llm_lock.acquire(timeout=1.0)`); whenever the
acquisition fails (pipeline busy) the endpoint returns HTTP 409 — not 500 —
and the conversation history is left untouched. -/
theorem C5_busy_returns_409 :
    (∀ (text : List Char) (conv : List Msg) (toks : List (List Char)),
      pyStrip text ≠ [] →
      handleCommand true text false conv toks = (409, conv)) ∧
    (∀ (text : List Char) (conv : List Msg) (toks : List (List Char)),
      pyStrip text ≠ [] →
      handleSpeak true text false false conv toks = (409, conv)) := by
  constructor
  · intro text conv toks htext
    simp only [handleCommand, executeCommand]
    rw [if_neg (by simp), if_neg (by simpa using htext)]
    simp
  · intro text conv toks htext
    simp only [handleSpeak, executeSpeak]
    rw [if_neg (by simp), if_neg (by simpa using htext)]
    simp

/-- Witness for C5: a busy pipeline rejecting a concrete `/command` and
`/speak` request with 409, leaving the history as it was. -/
theorem C5_witness :
    handleCommand true ['h','i'] false [Msg.mk Role.system []] [] =
      (409, [Msg.mk Role.system []]) ∧
    handleSpeak true ['h','i'] false false [Msg.mk Role.system []] [] =
      (409, [Msg.mk Role.system []]) :=
  ⟨C5_busy_returns_409.1 ['h','i'] [Msg.mk Role.system []] [] (by decide),
   C5_busy_returns_409.2 ['h','i'] [Msg.mk Role.system []] [] (by decide)⟩

/-! ### TTS text preparation — `prepare_for_tts` (jarvis/tts/text_prep.py)

Each `re.sub` pass is a fuel-based scanner (fuel = input length; every
match consumes at least one character): leftmost-first, and after a
replacement scanning resumes at the end of the match, as `re.sub` does.
Zero-width context (lookbehind, `^` under MULTILINE, `\b`) reads the
original characters, carried through the scanner as explicit state. -/

def apostChar : Char := Char.ofNat 39

def backtickChar : Char := Char.ofNat 96

/-- One `re.sub` pass: at each position try the matcher (match length and
replacement); on a match emit the replacement and continue after it. -/
def reSubF (f : List Char → Option (Nat × List Char)) : Nat → List Char → List Char
  | 0, l => l
  | fuel + 1, l =>
    match l with
    | [] => []
    | c :: rest =>
      match f (c :: rest) with
      | some (n, repl) =>
        if n = 0 then c :: reSubF f fuel rest
        else repl ++ reSubF f fuel ((c :: rest).drop n)
      | none => c :: reSubF f fuel rest

/-- `\[([^\]]+)\]\([^)]+\)` → `\1` (markdown link → link text). -/
def mdLinkAt : List Char → Option (Nat × List Char)
  | '[' :: rest =>
    let txt := rest.takeWhile (fun c => ¬ c = ']')
    if txt = [] then none
    else
      match rest.drop txt.length with
      | ']' :: '(' :: rest2 =>
        let url := rest2.takeWhile (fun c => ¬ c = ')')
        if url = [] then none
        else
          match rest2.drop url.length with
          | ')' :: _ => some (txt.length + url.length + 4, txt)
          | _ => none
      | _ => none
  | _ => none

/-- `https?://\S+` → `""` (raw URLs removed). -/
def urlAt (l : List Char) : Option (Nat × List Char) :=
  if l.take 8 = ['h', 't', 't', 'p', 's', ':', '/', '/'] then
    let w := (l.drop 8).takeWhile (fun c => ¬ isWS c)
    if w = [] then none else some (8 + w.length, [])
  else if l.take 7 = ['h', 't', 't', 'p', ':', '/', '/'] then
    let w := (l.drop 7).takeWhile (fun c => ¬ isWS c)
    if w = [] then none else some (7 + w.length, [])
  else none

/-- Closing `\*{1,2}` of the bold/italic pattern: greedy, two stars first. -/
def boldClose (opens : Nat) (txt after : List Char) : Option (Nat × List Char) :=
  match after with
  | '*' :: '*' :: _ => some (opens + txt.length + 2, txt)
  | '*' :: _ => some (opens + txt.length + 1, txt)
  | _ => none

/-- `\*{1,2}([^*]+)\*{1,2}` → `\1`; the greedy opener tries two stars, and
falls back to one only when the content after a single star is nonempty. -/
def boldAt : List Char → Option (Nat × List Char)
  | '*' :: '*' :: rest2 =>
    let txt := rest2.takeWhile (fun c => ¬ c = '*')
    if txt = [] then none
    else boldClose 2 txt (rest2.drop txt.length)
  | '*' :: rest =>
    let txt := rest.takeWhile (fun c => ¬ c = '*')
    if txt = [] then none
    else boldClose 1 txt (rest.drop txt.length)
  | _ => none

/-- Backtick-quoted spans → their content. -/
def backtickAt : List Char → Option (Nat × List Char)
  | c :: rest =>
    if c = backtickChar then
      let txt := rest.takeWhile (fun d => ¬ d = backtickChar)
      if txt = [] then none
      else
        match rest.drop txt.length with
        | d :: _ => if d = backtickChar then some (txt.length + 2, txt) else none
        | [] => none
    else none
  | [] => none

/-- `^[\-\*]\s+` → `""` with `re.MULTILINE`: a list dash/star at a line
start and its trailing whitespace run are removed; the line-start flag
after a match is whether the last consumed character was a newline. -/
def listDashF : Nat → Bool → List Char → List Char
  | 0, _, l => l
  | fuel + 1, atStart, l =>
    match l with
    | [] => []
    | c :: rest =>
      let ws := rest.takeWhile isWS
      if atStart ∧ (c = '-' ∨ c = '*') ∧ ¬ ws = [] then
        listDashF fuel (ws.getLastD ' ' = '\n') (rest.drop ws.length)
      else c :: listDashF fuel (c = '\n') rest

/-- `\s*[—–]\s*` → `", "` (isolated em/en dashes become a pause). -/
def dashAt (l : List Char) : Option (Nat × List Char) :=
  let w1 := l.takeWhile isWS
  match l.drop w1.length with
  | d :: rest =>
    if d = '—' ∨ d = '–' then
      some (w1.length + 1 + (rest.takeWhile isWS).length, [',', ' '])
    else none
  | [] => none

/-- `_clean_llm_artifacts`: the six passes in source order. -/
def cleanLlmArtifacts (t : List Char) : List Char :=
  let a := reSubF mdLinkAt t.length t
  let b := reSubF urlAt a.length a
  let c := reSubF boldAt b.length b
  let d := reSubF backtickAt c.length c
  let e := listDashF d.length true d
  reSubF dashAt e.length e

/-- `text.replace("…", "...")`. -/
def expandEllipsis (l : List Char) : List Char :=
  l.flatMap (fun c => if c = '…' then ['.', '.', '.'] else [c])

/-- `re.sub(r"\.\.\.\s*$", ".", text)`: the first `...` whose tail is all
whitespace — together with that tail — becomes a single `.`. -/
def ellipsisEndF : Nat → List Char → List Char
  | 0, l => l
  | fuel + 1, l =>
    match l with
    | [] => []
    | c :: rest =>
      if c = '.' ∧ rest.take 2 = ['.', '.'] ∧ (rest.drop 2).all isWS then ['.']
      else c :: ellipsisEndF fuel rest

/-- `text.replace("...", ",")`: left-to-right, non-overlapping. -/
def replaceDots : Nat → List Char → List Char
  | 0, l => l
  | fuel + 1, l =>
    match l with
    | [] => []
    | c :: rest =>
      if c = '.' ∧ rest.take 2 = ['.', '.'] then ',' :: replaceDots fuel (rest.drop 2)
      else c :: replaceDots fuel rest

/-- `_normalize_punctuation_for_prosody`: unicode ellipses expanded, a
trailing ellipsis becomes `.`, remaining ellipses become `,`, and `;`
becomes `,` — the `:` → `,` promised by the docstring has no pass. -/
def normPunct (t : List Char) : List Char :=
  let a := expandEllipsis t
  let b := ellipsisEndF a.length a
  let c := replaceDots b.length b
  c.map (fun ch => if ch = ';' then ',' else ch)

def accLower : List Char := ['à', 'â', 'é', 'è', 'ê', 'ë', 'î', 'ï', 'ô', 'û', 'ù', 'ü', 'ç']

def accUpper : List Char := ['À', 'Â', 'É', 'È', 'Ê', 'Ë', 'Î', 'Ï', 'Ô', 'Û', 'Ù', 'Ü', 'Ç']

/-- Case folding over the program's alphabet (ASCII + French accents). -/
def foldFr (c : Char) : Char :=
  match (accUpper.zip accLower).find? (fun p => p.1 == c) with
  | some p => p.2
  | none => c.toLower

/-- The lookbehind character set of `_BREATH_BEFORE` under `IGNORECASE`. -/
def isBreathChar (c : Char) : Bool :=
  c.isAlpha || accLower.contains c || accUpper.contains c

/-- `\w` over the program's alphabet. -/
def isWordChar (c : Char) : Bool :=
  c.isAlpha || c.isDigit || c = '_' || accLower.contains c || accUpper.contains c

/-- Case-insensitive prefix test against a lowercase word. -/
def ciPrefFr (w l : List Char) : Bool := (l.take w.length).map foldFr == w

/-- `\b` after a matched word: next character absent or not a word char. -/
def wordAfterOk : List Char → Bool
  | [] => true
  | c :: _ => ¬ isWordChar c

/-- The connector alternation of `_BREATH_BEFORE`, in source order. -/
def connectors : List (List Char) :=
  [['m', 'a', 'i', 's'], ['c', 'e', 'p', 'e', 'n', 'd', 'a', 'n', 't'],
   ['t', 'o', 'u', 't', 'e', 'f', 'o', 'i', 's'],
   ['n', 'é', 'a', 'n', 'm', 'o', 'i', 'n', 's'],
   ['p', 'o', 'u', 'r', 't', 'a', 'n', 't'], ['d', 'o', 'n', 'c'],
   ['a', 'l', 'o', 'r', 's'], ['e', 'n', 's', 'u', 'i', 't', 'e'],
   ['p', 'u', 'i', 's'], ['s', 'i', 'n', 'o', 'n'],
   ('d' :: apostChar :: ['a', 'i', 'l', 'l', 'e', 'u', 'r', 's']),
   ['e', 'n', ' ', 'f', 'a', 'i', 't'],
   ['p', 'a', 'r', 'c', 'e', ' ', 'q', 'u', 'e'],
   ['p', 'u', 'i', 's', 'q', 'u', 'e'], ['c', 'a', 'r'],
   ['a', 'f', 'i', 'n', ' ', 'q', 'u', 'e'],
   ['p', 'o', 'u', 'r', ' ', 'q', 'u', 'e']]

/-- The lookahead `(?=(?:mais|…)\b)`: some connector matches here. -/
def connAhead (l : List Char) : Bool :=
  connectors.any (fun w => ciPrefFr w l && wordAfterOk (l.drop w.length))

/-- Lookbehind of `_BREATH_BEFORE` on the character before the position. -/
def prevBreathOk : Option Char → Bool
  | some p => isBreathChar p
  | none => false

/-- Leading `\b` of `_INTERJECTION_RE` on the character before. -/
def prevBoundaryOk : Option Char → Bool
  | some p => ¬ isWordChar p
  | none => true

/-- `_BREATH_BEFORE.sub(", ", text)`: a whitespace run preceded by a letter
and followed by a connector becomes `", "`; `prev` is the original
character before the scan position (for the lookbehind). -/
def breathBeforeF : Nat → Option Char → List Char → List Char
  | 0, _, l => l
  | fuel + 1, prev, l =>
    match l with
    | [] => []
    | c :: rest =>
      let ws := (c :: rest).takeWhile isWS
      if prevBreathOk prev ∧ ¬ ws = [] ∧
          connAhead ((c :: rest).drop ws.length) then
        ',' :: ' ' :: breathBeforeF fuel (some (ws.getLastD c)) ((c :: rest).drop ws.length)
      else c :: breathBeforeF fuel (some c) rest

/-- The interjection alternation of `_INTERJECTION_RE`, in source order. -/
def interjections : List (List Char) :=
  [['a', 'h'], ['o', 'h'], ['e', 'h'], ['h', 'm', 'm'], ['b', 'o', 'n'],
   ['b', 'e', 'n'], ['b', 'r', 'e', 'f'], ['e', 'n', 'f', 'i', 'n'],
   ['t', 'i', 'e', 'n', 's'], ['b', 'a', 'h'], ['e', 'u', 'h'],
   ['h', 'e', 'i', 'n'], ['a', 'l', 'l', 'o', 'n', 's'],
   ['v', 'o', 'y', 'o', 'n', 's'], ['d', 'i', 's', ' ', 'd', 'o', 'n', 'c'],
   ['q', 'u', 'a', 'n', 'd', ' ', 'm', 'ê', 'm', 'e'],
   ['d', 'u', ' ', 'c', 'o', 'u', 'p']]

/-- The negative lookahead `(?!\s*[,!?.])` fails the match. -/
def interjBad (rest : List Char) : Bool :=
  match rest.dropWhile isWS with
  | c :: _ => c = ',' || c = '!' || c = '?' || c = '.'
  | [] => false

/-- First interjection (in alternation order) matching here with a word
boundary after and a clear lookahead; returns the matched length. -/
def interjMatchLen (l : List Char) : Option Nat :=
  interjections.findSome? (fun w =>
    if ciPrefFr w l ∧ wordAfterOk (l.drop w.length) ∧ ¬ interjBad (l.drop w.length) then
      some w.length
    else none)

/-- `_INTERJECTION_RE.sub(r"\1,", text)`: append a comma after each matched
interjection; `prev` is the original character before the position (for
the leading `\b`). -/
def interjF : Nat → Option Char → List Char → List Char
  | 0, _, l => l
  | fuel + 1, prev, l =>
    match l with
    | [] => []
    | c :: rest =>
      if prevBoundaryOk prev then
        match interjMatchLen (c :: rest) with
        | some n =>
          (c :: rest).take n ++ [','] ++
            interjF fuel (some (((c :: rest).take n).getLastD c)) ((c :: rest).drop n)
        | none => c :: interjF fuel (some c) rest
      else c :: interjF fuel (some c) rest

/-- `_add_breath_pauses`: connector pass then interjection pass. -/
def addBreath (t : List Char) : List Char :=
  let a := breathBeforeF t.length none t
  interjF a.length none a

/-- `re.sub(r",\s*,", ",", text)`. -/
def commaCommaF : Nat → List Char → List Char
  | 0, l => l
  | fuel + 1, l =>
    match l with
    | [] => []
    | c :: rest =>
      if c = ',' ∧ (rest.dropWhile isWS).take 1 = [','] then
        ',' :: commaCommaF fuel ((rest.dropWhile isWS).drop 1)
      else c :: commaCommaF fuel rest

/-- `_normalize_whitespace`: double commas merged, whitespace collapsed. -/
def normWs (t : List Char) : List Char :=
  collapseWsRuns (commaCommaF t.length t)

/-- `prepare_for_tts`: empty/blank input short-circuits to `""`; otherwise
the four stages then a final strip. -/
def prepareForTts (t : List Char) : List Char :=
  if t = [] ∨ pyStrip t = [] then []
  else pyStrip (normWs (addBreath (normPunct (cleanLlmArtifacts t))))

/-- **C8.** `prepare_for_tts` replaces `;` with `,` but leaves `:`
untouched: on `"a: b"` the output still contains the colon, unchanged,
although the punctuation pass's own docstring announces `:` → `,`
(Chatterbox's later `punc_norm` is outside this function). -/
theorem C8_colon_not_replaced :
    prepareForTts ['a', ':', ' ', 'b'] = ['a', ':', ' ', 'b'] ∧
    ':' ∈ prepareForTts ['a', ':', ' ', 'b'] ∧
    prepareForTts ['a', ';', ' ', 'b'] = ['a', ',', ' ', 'b'] := by decide
